import Mathlib

/-!
Verification development for the industry-report repository.

The definitions below are a shallow embedding of the Python source:

* `async_data_manager.py` — the article store and the report store backed by
  SQLite (`articles.db`, `reports.db`);
* `async_report_generator.py` — the monthly/yearly report orchestration and
  the bullet-marker post-processing of LLM output;
* `async_future_report_generator.py` — the future-strategy report path.

SQLite semantics that matter here and are modelled explicitly:

* a `UNIQUE` constraint treats `NULL` values as pairwise distinct, so a row
  whose `month` is `NULL` never collides with any other row on
  `UNIQUE(report_type, company, year, month)`;
* an SQL comparison `month = ?` with a `NULL` parameter matches no row;
* a failed `INSERT` raises; the surrounding `except aiosqlite.Error` handler
  swallows the exception, the `commit()` is skipped and closing the
  connection rolls the transaction back, so the stored state is unchanged;
* `SELECT` without `ORDER BY` returns rows in insertion (rowid) order; the
  report loader orders by the `timestamp` column descending.  Timestamps are
  modelled as a strictly increasing natural-number clock, one tick per
  insert, which matches the second-granularity text timestamps of the source
  whenever two inserts do not share a second.
-/

namespace IndustryReport

/-- One row of the `reports` table (`initialize_reports_db`,
`async_data_manager.py` lines 41-54).  `month` is `none` for the SQL `NULL`
used by yearly/keyword/trend/future reports.  `timestamp` is the insertion
clock tick. -/
structure ReportRow where
  username : String
  report_type : String
  company : String
  year : Nat
  month : Option Nat
  content : String
  timestamp : Nat
deriving DecidableEq

/-- Python truthiness of an optional string argument (`if username:` treats
both `None` and the empty string as absent). -/
def truthyS (o : Option String) : Bool :=
  match o with
  | none => false
  | some s => s ≠ ""

/-- Python truthiness of an optional integer argument (`if month:` treats
both `None` and `0` as absent). -/
def truthyN (o : Option Nat) : Bool :=
  match o with
  | none => false
  | some n => n ≠ 0

/-- The WHERE clause assembled by `load_reports_from_db`
(`async_data_manager.py` lines 231-255): an exact-match conjunct is added
for each argument that is truthy; in particular a `month` argument of
`None` adds no conjunct at all (the `if month:` test), so it acts as a
wildcard. -/
def rowMatches (username report_type query : Option String)
    (year month : Option Nat) (r : ReportRow) : Bool :=
  (!truthyS username || r.username == username.getD "") &&
  (!truthyS report_type || r.report_type == report_type.getD "") &&
  (!truthyS query || r.company == query.getD "") &&
  (!truthyN year || r.year == year.getD 0) &&
  (!truthyN month || r.month == some (month.getD 0))

/-- Insertion into a timestamp-descending list, keeping already placed rows
of equal or larger timestamp first. -/
def insertTsDesc (r : ReportRow) : List ReportRow → List ReportRow
  | [] => [r]
  | x :: xs => if r.timestamp ≤ x.timestamp then x :: insertTsDesc r xs else r :: x :: xs

/-- The `ORDER BY timestamp DESC` of `load_reports_from_db`.  SQLite leaves
the relative order of equal timestamps unspecified; this model picks one
deterministic order, and every claim is evaluated on rows with pairwise
distinct timestamps. -/
def sortTsDesc (l : List ReportRow) : List ReportRow :=
  l.foldr insertTsDesc []

/-- `load_reports_from_db(username, report_type, query, year, month)`
(`async_data_manager.py` lines 223-274): filter by the truthy arguments,
order newest first. -/
def load_reports_from_db (db : List ReportRow) (username report_type query : Option String)
    (year month : Option Nat) : List ReportRow :=
  sortTsDesc (db.filter (rowMatches username report_type query year month))

/-- Outcome of a `save_report_to_db` call: the duplicate-check no-op, a
successful insert, or an insert rejected by the table's `UNIQUE`
constraint (the raised error is printed and swallowed). -/
inductive SaveOutcome where
  | skipped
  | inserted
  | dbError
deriving DecidableEq

/-- The SQL comparison `month = ?` of the monthly duplicate check: with a
`NULL` parameter it matches no row. -/
def monthParamEq (rm m : Option Nat) : Bool :=
  match m with
  | some mv => rm == some mv
  | none => false

/-- `save_report_to_db(username, report_type, query, content, year, month)`
(`async_data_manager.py` lines 179-221).  First the duplicate pre-check:
for `report_type == "monthly"` it matches on `month = ?`, otherwise on
`month IS NULL`; a hit returns without writing.  Otherwise the INSERT runs
against `UNIQUE(report_type, company, year, month)` — note that the
constraint does not include `username`, and that a `NULL` month never
collides.  A constraint violation is caught and leaves the table
unchanged. -/
def save_report_to_db (db : List ReportRow) (clock : Nat)
    (username report_type query content : String) (year : Nat) (month : Option Nat) :
    SaveOutcome × List ReportRow :=
  let dup :=
    if report_type == "monthly" then
      db.any (fun r => r.username == username && r.report_type == report_type &&
        r.company == query && r.year == year && monthParamEq r.month month)
    else
      db.any (fun r => r.username == username && r.report_type == report_type &&
        r.company == query && r.year == year && r.month == none)
  if dup then (.skipped, db)
  else
    let uviol :=
      match month with
      | some mv => db.any (fun r => r.report_type == report_type &&
          r.company == query && r.year == year && r.month == some mv)
      | none => false
    if uviol then (.dbError, db)
    else (.inserted, db ++ [⟨username, report_type, query, year, month, content, clock⟩])

/-- One row of the `articles` table (`initialize_db`,
`async_data_manager.py` lines 17-31).  The table declares
`url TEXT UNIQUE NOT NULL`: the uniqueness constraint is on `url` alone,
for all usernames together. -/
structure ArticleRow where
  username : String
  title : String
  publish_date : Option String
  author : Option String
  content : String
  url : String
  company : Option String
deriving DecidableEq

/-- A crawled-article dict as consumed by `save_articles_to_db`; each field
is `article.get(...)`, so a missing key is `none`. `companyKor` is the
Korean key and `companyEng` the fallback English key. -/
structure ArticleInput where
  title : Option String
  publish_date : Option String
  author : Option String
  content : Option String
  url : Option String
  companyKor : Option String
  companyEng : Option String
deriving DecidableEq

/-- Outcome of a `save_articles_to_db` call: empty input, nothing new to
insert, a successful batch insert, or a batch aborted by the `UNIQUE(url)`
constraint (the error is printed, the commit skipped, the transaction
rolled back). -/
inductive ArticlesOutcome where
  | noInput
  | noNew
  | saved
  | dbError
deriving DecidableEq

/-- Boolean duplicate test on a list of strings. -/
def hasDup : List String → Bool
  | [] => false
  | x :: xs => xs.contains x || hasDup xs

/-- `save_articles_to_db(articles, username)` (`async_data_manager.py`
lines 81-132).  The duplicate pre-check collects the urls already stored
for this `username` only; records missing title, url or body are skipped;
the surviving records are inserted with `executemany`.  If any inserted
url collides with a url already in the table under any username (or with
another record of the same batch — the pre-check set is not updated inside
the loop), the insert raises, the exception is swallowed and the
transaction is rolled back, leaving the table unchanged. -/
def save_articles_to_db (db : List ArticleRow) (articles : List ArticleInput)
    (username : String) : ArticlesOutcome × List ArticleRow :=
  if articles.isEmpty then (.noInput, db)
  else
    let existing_urls := (db.filter (fun a => a.username == username)).map (fun a => a.url)
    let to_insert := articles.filterMap (fun a =>
      if !truthyS a.url || !truthyS a.title || !truthyS a.content then none
      else if existing_urls.contains (a.url.getD "") then none
      else some (⟨username, a.title.getD "", a.publish_date, a.author,
        a.content.getD "", a.url.getD "",
        if truthyS a.companyKor then a.companyKor else a.companyEng⟩ : ArticleRow))
    if to_insert.isEmpty then (.noNew, db)
    else if to_insert.any (fun n => db.any (fun a => a.url == n.url)) ||
        hasDup (to_insert.map (fun n => n.url)) then (.dbError, db)
    else (.saved, db ++ to_insert)

/-- C1.  The claim quantifies over every cache key; it fails on the key
(owner, "monthly", subject, year, no-month): the monthly duplicate check
compares `month = ?`, which with a `NULL` parameter matches nothing, and
the `UNIQUE` constraint treats `NULL` months as distinct, so a second save
with different content inserts a second row instead of being a no-op.
Counterexample: after saving content "A" under key
("alice", "monthly", "Acme", 2023, none), a row for that exact key exists,
yet saving "B" under the same key changes the stored reports. -/
theorem save_report_monthly_no_month_duplicates :
    ((save_report_to_db [] 0 "alice" "monthly" "Acme" "A" 2023 none).2.any
      (fun r => r.username == "alice" && r.report_type == "monthly" &&
        r.company == "Acme" && r.year == 2023 && r.month == none)) = true ∧
    (save_report_to_db (save_report_to_db [] 0 "alice" "monthly" "Acme" "A" 2023 none).2
        1 "alice" "monthly" "Acme" "B" 2023 none).2 ≠
      (save_report_to_db [] 0 "alice" "monthly" "Acme" "A" 2023 none).2 := by decide

/-- C1 (amended).  Write-once caching as amended: for every cache key
(owner, report_kind, subject, year, month) for which a report row already
exists, and whose month component is present whenever the report kind is
"monthly" (every monthly save in the repository passes a concrete month),
a later save call with any content leaves the stored reports unchanged:
the pre-check skips, or the INSERT is rejected by the UNIQUE constraint
and rolled back. -/
theorem save_report_write_once (db : List ReportRow) (clock : Nat)
    (u t q c : String) (y : Nat) (m : Option Nat) (r : ReportRow)
    (hr : r ∈ db) (hu : r.username = u) (ht : r.report_type = t)
    (hq : r.company = q) (hy : r.year = y) (hm : r.month = m)
    (hmonthly : t = "monthly" → m.isSome) :
    (save_report_to_db db clock u t q c y m).2 = db := by
  by_cases htm : t = "monthly"
  · obtain ⟨mv, hmv⟩ := Option.isSome_iff_exists.mp (hmonthly htm)
    have htb : (t == "monthly") = true := by simp [htm]
    have hdup : (db.any (fun r0 => r0.username == u && r0.report_type == t &&
        r0.company == q && r0.year == y && monthParamEq r0.month m)) = true := by
      refine List.any_eq_true.mpr ⟨r, hr, ?_⟩
      simp [hu, ht, hq, hy, hm, hmv, monthParamEq]
    simp [save_report_to_db, htb, hdup]
  · have htb : (t == "monthly") = false := by simp [htm]
    cases hmc : m with
    | none =>
      have hdup : (db.any (fun r0 => r0.username == u && r0.report_type == t &&
          r0.company == q && r0.year == y && r0.month == none)) = true := by
        refine List.any_eq_true.mpr ⟨r, hr, ?_⟩
        simp [hu, ht, hq, hy, hm, hmc]
      simp [save_report_to_db, htb, hdup]
    | some mv =>
      have huviol : (db.any (fun r0 => r0.report_type == t &&
          r0.company == q && r0.year == y && r0.month == some mv)) = true := by
        refine List.any_eq_true.mpr ⟨r, hr, ?_⟩
        simp [ht, hq, hy, hm, hmc]
      by_cases hdup : (db.any (fun r0 => r0.username == u && r0.report_type == t &&
          r0.company == q && r0.year == y && r0.month == none)) = true
      · simp [save_report_to_db, htb, hdup]
      · simp [save_report_to_db, htb, hdup, huviol]

/-- C1 witness: a concrete yearly row already stored; a second save with
different content leaves the store unchanged. -/
theorem save_report_write_once_witness :
    (save_report_to_db [⟨"alice", "yearly", "Acme", 2023, none, "A", 0⟩] 1
      "alice" "yearly" "Acme" "B" 2023 none).2 =
      [⟨"alice", "yearly", "Acme", 2023, none, "A", 0⟩] :=
  save_report_write_once _ 1 "alice" "yearly" "Acme" "B" 2023 none
    ⟨"alice", "yearly", "Acme", 2023, none, "A", 0⟩ (by decide) rfl rfl rfl rfl rfl
    (fun h => absurd h (by decide))

/-- C2.  The reports table declares `UNIQUE(report_type, company, year,
month)` without `username`, although the code's own duplicate-check comment
and the spec state the key is per owner.  After alice stores a monthly
artifact for ("monthly", "Acme", 2023, 3), bob's save for the same
(report_kind, subject, year, month) hits the constraint: the insert fails,
the error is swallowed, and no artifact for bob is stored. -/
theorem save_report_unique_ignores_owner :
    (save_report_to_db (save_report_to_db [] 0 "alice" "monthly" "Acme" "x" 2023 (some 3)).2
        1 "bob" "monthly" "Acme" "y" 2023 (some 3)).1 = SaveOutcome.dbError ∧
    ((save_report_to_db (save_report_to_db [] 0 "alice" "monthly" "Acme" "x" 2023 (some 3)).2
        1 "bob" "monthly" "Acme" "y" 2023 (some 3)).2.any
      (fun r => r.username == "bob")) = false ∧
    (save_report_to_db (save_report_to_db [] 0 "alice" "monthly" "Acme" "x" 2023 (some 3)).2
        1 "bob" "monthly" "Acme" "y" 2023 (some 3)).2 =
      [⟨"alice", "monthly", "Acme", 2023, some 3, "x", 0⟩] := by decide

/-- C5.  The articles table constraint is `UNIQUE(url)` over all owners,
although the in-code comment says the url should be unique per user and
the pre-check is scoped to the caller's username.  After user1 stores an
article with url "http://u1", user2's save of a valid article with the
same url passes the per-user pre-check, then the insert violates the
global constraint: the batch is rolled back and nothing is stored for
user2. -/
theorem save_articles_url_unique_ignores_owner :
    (save_articles_to_db
      (save_articles_to_db []
        [⟨some "T", some "2024-01-01", some "R", some "B", some "http://u1", some "Acme", none⟩]
        "user1").2
      [⟨some "T", some "2024-01-01", some "R", some "B", some "http://u1", some "Acme", none⟩]
      "user2").1 = ArticlesOutcome.dbError ∧
    ((save_articles_to_db
      (save_articles_to_db []
        [⟨some "T", some "2024-01-01", some "R", some "B", some "http://u1", some "Acme", none⟩]
        "user1").2
      [⟨some "T", some "2024-01-01", some "R", some "B", some "http://u1", some "Acme", none⟩]
      "user2").2.any (fun r => r.username == "user2")) = false ∧
    (save_articles_to_db
      (save_articles_to_db []
        [⟨some "T", some "2024-01-01", some "R", some "B", some "http://u1", some "Acme", none⟩]
        "user1").2
      [⟨some "T", some "2024-01-01", some "R", some "B", some "http://u1", some "Acme", none⟩]
      "user2").2 =
      [⟨"user1", "T", some "2024-01-01", some "R", "B", "http://u1", some "Acme"⟩] := by decide

/-- C9.  The month filter of `load_reports_from_db` is guarded by
`if month:`, so passing the special no-month value `None` adds no filter at
all (a wildcard) instead of matching rows whose month is absent, although
the adjacent comment says a `None` month should find the NULL-month rows.
With one monthly row (month 3) and one yearly row (month NULL) stored for
alice, a load with the no-month value returns both rows — including the
month = 3 row the claim says must be excluded. -/
theorem load_reports_no_month_is_wildcard :
    (⟨"alice", "monthly", "Acme", 2023, some 3, "M", 0⟩ : ReportRow) ∈
      load_reports_from_db
        [⟨"alice", "monthly", "Acme", 2023, some 3, "M", 0⟩,
         ⟨"alice", "yearly", "Acme", 2023, none, "Y", 1⟩]
        (some "alice") none none none none ∧
    load_reports_from_db
        [⟨"alice", "monthly", "Acme", 2023, some 3, "M", 0⟩,
         ⟨"alice", "yearly", "Acme", 2023, none, "Y", 1⟩]
        (some "alice") none none none none =
      [⟨"alice", "yearly", "Acme", 2023, none, "Y", 1⟩,
       ⟨"alice", "monthly", "Acme", 2023, some 3, "M", 0⟩] := by decide

/-- Decidable equality for exception-or-value results. -/
instance {α β : Type} [DecidableEq α] [DecidableEq β] : DecidableEq (Except α β) := fun a b =>
  match a, b with
  | .ok x, .ok y =>
    if h : x = y then isTrue (by rw [h]) else isFalse (fun hh => h (Except.ok.inj hh))
  | .error x, .error y =>
    if h : x = y then isTrue (by rw [h]) else isFalse (fun hh => h (Except.error.inj hh))
  | .ok _, .error _ => isFalse (fun hh => Except.noConfusion hh)
  | .error _, .ok _ => isFalse (fun hh => Except.noConfusion hh)

/-- Fuel-driven engine of Python `str.replace`: leftmost, non-overlapping,
single pass (inserted replacement text is not rescanned).  Each step
consumes at least one character, so any fuel of at least the text length
computes the full replacement. -/
def replAllF (p : Char) (ps repl : List Char) : Nat → List Char → List Char
  | _, [] => []
  | 0, s => s
  | fuel + 1, c :: cs =>
    if (p :: ps).isPrefixOf (c :: cs) then repl ++ replAllF p ps repl fuel (cs.drop ps.length)
    else c :: replAllF p ps repl fuel cs

/-- Python `str.replace(pat, repl)` on character lists for a non-empty
pattern `p :: ps`. -/
def replAll (p : Char) (ps repl : List Char) (s : List Char) : List Char :=
  replAllF p ps repl s.length s

/-- String front end of `replAll`; an empty pattern leaves the text
unchanged (never used by the source). -/
def replAllS (pat repl : String) (s : List Char) : List Char :=
  match pat.data with
  | [] => s
  | p :: ps => replAll p ps repl.data s

/-- Python whitespace as recognised by `str.strip()`. -/
def pyWS (c : Char) : Bool :=
  c == ' ' || c == '\t' || c == '\n' || c == '\r' || c == '\x0b' || c == '\x0c'

/-- Python `str.strip()`: drop leading and trailing whitespace. -/
def pyStrip (s : List Char) : List Char :=
  ((s.dropWhile pyWS).reverse.dropWhile pyWS).reverse

/-- The body of `_postprocess_report_output`
(`async_report_generator.py` lines 95-106): four marker-insertion
replacements, four blank-line-collapse replacements, then `strip()`. -/
def postprocessL (s : List Char) : List Char :=
  pyStrip
    (replAllS "\n\n□ " "\n□ "
      (replAllS "\n\n      •" "\n      •"
        (replAllS "\n\n    -" "\n    -"
          (replAllS "\n\n  ○" "\n  ○"
            (replAllS "□ " "\n□ "
              (replAllS "• " "\n      • "
                (replAllS "- " "\n    - "
                  (replAllS "○ " "\n  ○ " s))))))))

/-- `_postprocess_report_output(content)` on strings. -/
def _postprocess_report_output (s : String) : String :=
  ⟨postprocessL s.data⟩

/-- Python `"sep".join(l)`. -/
def joinSep (sep : String) : List String → String
  | [] => ""
  | x :: xs => xs.foldl (fun acc y => acc ++ sep ++ y) x

/-- What `_generate_page_4_future_report` hands back to its caller: the raw
row list of a cache hit (the source returns `existing_report_content`, the
list of row dicts, unprojected), generated report text, the error-message
string produced by the function's own blanket `except` handler, or a
propagated exception — the last is what the claim asserts and what the
source, whose whole body sits inside `try/except Exception`, never
produces. -/
inductive FRes where
  | rows (rs : List ReportRow)
  | text (s : String)
  | errMsg (s : String)
  | raised (s : String)
deriving DecidableEq

/-- Discriminator: did the call propagate an exception to the caller? -/
def FRes.isRaised : FRes → Bool
  | .raised _ => true
  | _ => false

/-- Message of the `ValueError` raised when the vector retrieval returns no
documents (`async_future_report_generator.py` lines 276-277); the source
wraps the company name in single quotation marks, elided here. -/
def noDocsMsg (query : String) : String :=
  "⚠️ " ++ query ++
    "에 대한 관련성 높은 문서를 벡터스토어에서 찾지 못했습니다. Serper 검색이 비활성화되었거나 기존 데이터가 부족할 수 있습니다."

/-- The `try` body of `_generate_page_4_future_report`
(`async_future_report_generator.py` lines 136-296), over the external
boundaries: the Serper search and the Chroma vector store are outside the
repository, so the MMR retrieval outcome is supplied as the list
`retrieved` of document contents, and the LLM chain as the oracle `llm`
(whose `.error` represents a raised exception, e.g. exhausted retries).
Steps: cache check against the report store (the `month` argument is
omitted, hence a wildcard); on a cache hit return the loaded row list
as-is; otherwise, if retrieval produced no documents, raise `ValueError`;
otherwise join the document contents with blank lines, invoke the LLM,
post-process, persist under ("future", query, year, NULL month) and return
the content.  The third component counts LLM invocations. -/
def futureRun (db : List ReportRow) (clock : Nat) (username query : String) (year : Nat)
    (retrieved : List String) (llm : String → Except String String) :
    Except String FRes × List ReportRow × Nat :=
  let cache := load_reports_from_db db (some username) (some "future") (some query) (some year) none
  if !cache.isEmpty then (.ok (.rows cache), db, 0)
  else if retrieved.isEmpty then (.error (noDocsMsg query), db, 0)
  else
    match llm (joinSep "\n\n" retrieved) with
    | .error e => (.error e, db, 1)
    | .ok raw =>
      let content := _postprocess_report_output raw
      (.ok (.text content), (save_report_to_db db clock username "future" query content year none).2, 1)

/-- `_generate_page_4_future_report`: the blanket `except Exception`
handler turns any exception of the body into a normally returned
error-message string (also reported through the progress callback with
status `error`); no exception propagates to the caller. -/
def _generate_page_4_future_report (db : List ReportRow) (clock : Nat)
    (username query : String) (year : Nat) (retrieved : List String)
    (llm : String → Except String String) : FRes × List ReportRow × Nat :=
  match futureRun db clock username query year retrieved llm with
  | (.ok r, db2, n) => (r, db2, n)
  | (.error e, db2, n) => (.errMsg ("❌ 보고서 생성 실패: " ++ e), db2, n)

/-- C6.  The claim says an empty retrieval raises a caller-visible failure.
Counterexample: with an empty store and empty retrieval, the call returns
normally — the internal `ValueError` is caught by the function's own
`except` handler and converted into an error-message return value, so the
caller receives a string, not a raised exception. -/
theorem future_report_empty_retrieval_returns_normally :
    (_generate_page_4_future_report [] 0 "alice" "Acme" 2025 []
      (fun _ => .error "unused")).1.isRaised = false ∧
    (_generate_page_4_future_report [] 0 "alice" "Acme" 2025 []
      (fun _ => .error "unused")).1 =
      FRes.errMsg ("❌ 보고서 생성 실패: " ++ noDocsMsg "Acme") := by decide

/-- C6 (amended).  When the future-report retrieval yields zero documents
(and no cached artifact exists), generation hard-stops: the internal
`ValueError` is converted by the function's top-level handler into an
error-message return (flagged `error` to the progress callback), with no
LLM call and no artifact persisted — a failure signal distinct from the
informational placeholder returns of the yearly/keyword/trend paths, but
delivered as a return value, not as a propagated exception. -/
theorem future_report_empty_retrieval_hard_stop (db : List ReportRow) (clock : Nat)
    (u q : String) (year : Nat) (llm : String → Except String String)
    (hcache : load_reports_from_db db (some u) (some "future") (some q) (some year) none = []) :
    _generate_page_4_future_report db clock u q year [] llm =
      (FRes.errMsg ("❌ 보고서 생성 실패: " ++ noDocsMsg q), db, 0) := by
  simp [_generate_page_4_future_report, futureRun, hcache]

/-- C6 witness: the hard-stop theorem evaluated at an empty store. -/
theorem future_report_empty_retrieval_hard_stop_witness :
    load_reports_from_db [] (some "alice") (some "future") (some "Acme") (some 2025) none = [] ∧
    _generate_page_4_future_report [] 0 "alice" "Acme" 2025 [] (fun _ => .ok "r") =
      (FRes.errMsg ("❌ 보고서 생성 실패: " ++ noDocsMsg "Acme"), [], 0) :=
  ⟨by decide, future_report_empty_retrieval_hard_stop [] 0 "alice" "Acme" 2025 _ (by decide)⟩

/-- C7.  On a cache hit the source executes
`return existing_report_content`, where `existing_report_content` is the
full list of row dicts returned by `load_reports_from_db`, not
`[0]['content']` — contradicting the function's `-> str` annotation and
docstring.  With a cached future artifact stored, the call returns the row
list (no LLM call), not the artifact's content text. -/
theorem future_report_cache_hit_returns_rows_not_text :
    _generate_page_4_future_report
        [⟨"alice", "future", "Acme", 2025, none, "future content", 0⟩]
        1 "alice" "Acme" 2025 ["doc"] (fun _ => .ok "new") =
      (FRes.rows [⟨"alice", "future", "Acme", 2025, none, "future content", 0⟩],
        [⟨"alice", "future", "Acme", 2025, none, "future content", 0⟩], 0) ∧
    FRes.rows [⟨"alice", "future", "Acme", 2025, none, "future content", 0⟩] ≠
      FRes.text "future content" := by decide

/-- Splitting a character list at every occurrence of a separator
character (the shape `"s".split("-")` takes on the dates here). -/
def splitOnChar (sep : Char) : List Char → List (List Char)
  | [] => [[]]
  | c :: cs =>
    let r := splitOnChar sep cs
    if c == sep then [] :: r
    else
      match r with
      | [] => [[c]]
      | h :: t => (c :: h) :: t

/-- A non-empty all-digit character list read as a decimal number. -/
def digitsToNat : List Char → Option Nat
  | [] => none
  | l =>
    if l.all (fun c => c.isDigit) then
      some (l.foldl (fun acc c => acc * 10 + (c.toNat - 48)) 0)
    else none

/-- Model of `pd.to_datetime(s, format="%Y-%m-%d", errors="coerce")`
followed by `.dt.year` / `.dt.month`: three dash-separated decimal fields,
month 1-12, day 1-31 (exact per-month day counts are not modelled; every
claim is evaluated on dates where pandas and this model agree), `none` for
anything unparseable (pandas `NaT`, dropped by `dropna`). -/
def parseDateYM (s : String) : Option (Nat × Nat) :=
  match splitOnChar '-' s.data with
  | [ys, ms, ds] =>
    match digitsToNat ys, digitsToNat ms, digitsToNat ds with
    | some y, some m, some d =>
      if 1 ≤ m && m ≤ 12 && 1 ≤ d && d ≤ 31 then some (y, m) else none
    | _, _, _ => none
  | _ => none

/-- One row of the dataframe built in `_generate_page_1_yearly_issues`
after date parsing and `dropna`: the fields the pipeline reads, plus the
derived year and month columns. -/
structure PRow where
  title : String
  publish_date : String
  content : String
  company : Option String
  year : Nat
  month : Nat
deriving DecidableEq

/-- `load_articles_from_db(username)` (rows in insertion order) followed by
the date parse and `dropna(subset=["date"])` of
`_generate_page_1_yearly_issues` (lines 113-127). -/
def parsedRows (adb : List ArticleRow) (username : String) : List PRow :=
  (adb.filter (fun a => a.username == username)).filterMap (fun a =>
    match a.publish_date with
    | none => none
    | some d =>
      match parseDateYM d with
      | none => none
      | some ym => some ⟨a.title, d, a.content, a.company, ym.1, ym.2⟩)

/-- `int(df["year"].min())` for a non-empty frame (the empty case raises,
handled in the page function). -/
def minYearOf : List PRow → Nat
  | [] => 0
  | r :: rs => rs.foldl (fun acc x => Nat.min acc x.year) r.year

/-- `int(df["year"].max())` for a non-empty frame. -/
def maxYearOf : List PRow → Nat
  | [] => 0
  | r :: rs => rs.foldl (fun acc x => Nat.max acc x.year) r.year

/-- `range(min_year, max_year + 1)`. -/
def yearsRange (lo hi : Nat) : List Nat :=
  (List.range (hi + 1 - lo)).map (fun i => lo + i)

/-- `range(1, 13)`. -/
def monthsList : List Nat :=
  (List.range 12).map (fun i => i + 1)

/-- Inner month loop of the decomposition (lines 150-152): for each month
of the list, the unit is kept only if that month's frame is non-empty. -/
def monthUnitsMonths (yr : List PRow) (y : Nat) : List Nat → List (Nat × Nat × List PRow)
  | [] => []
  | m :: ms =>
    let mr := yr.filter (fun r => r.month == m)
    if mr.isEmpty then monthUnitsMonths yr y ms
    else (y, m, mr) :: monthUnitsMonths yr y ms

/-- Outer year loop of the decomposition (lines 145-149) over an explicit
year list: a year whose company-filtered frame is empty contributes
nothing (its month loop is skipped).  The username filter of line 146 is
already subsumed by `parsedRows`. -/
def monthUnitsGo (parsed : List PRow) (query : String) : List Nat → List (Nat × Nat × List PRow)
  | [] => []
  | y :: ys =>
    let yr := parsed.filter (fun r => r.year == y && r.company == some query)
    if yr.isEmpty then monthUnitsGo parsed query ys
    else monthUnitsMonths yr y monthsList ++ monthUnitsGo parsed query ys

/-- The schedulable (year, month) units of the month loop (lines 145-152):
years in ascending order, within a year months 1..12. -/
def monthUnits (parsed : List PRow) (query : String) (minY maxY : Nat) :
    List (Nat × Nat × List PRow) :=
  monthUnitsGo parsed query (yearsRange minY maxY)

/-- The per-article prompt block of lines 166-169. -/
def articleBlock (r : PRow) : String :=
  "**제목:** " ++ r.title ++ "\n**작성일:** " ++ r.publish_date ++
    "\n**기사 본문:** " ++ r.content

/-- A monthly unit as scheduled: either a cache hit (wrapped by the source
in `asyncio.to_thread(lambda: (year, month, monthly_content))`) or a fresh
generation coroutine whose arguments were evaluated at call time. -/
inductive MTask where
  | cachedHit (year month : Nat) (content : String)
  | fresh (year month : Nat) (articlesText : String)
deriving DecidableEq

/-- Cache check of one unit (lines 155-172): a stored monthly report for
(username, "monthly", query, year, month) makes the unit a cache hit with
the newest row's content; otherwise the unit is fresh with the
delimiter-joined article blocks of that month. -/
def taskOfUnit (rdb : List ReportRow) (username query : String)
    (u : Nat × Nat × List PRow) : MTask :=
  match load_reports_from_db rdb (some username) (some "monthly") (some query)
      (some u.1) (some u.2.1) with
  | c :: _ => .cachedHit u.1 u.2.1 c.content
  | [] => .fresh u.1 u.2.1 (joinSep "\n---\n" (u.2.2.map articleBlock))

/-- The full monthly task list in scheduling order. -/
def monthlyTasks (parsed : List PRow) (rdb : List ReportRow) (username query : String) :
    List MTask :=
  (monthUnits parsed query (minYearOf parsed) (maxYearOf parsed)).map
    (taskOfUnit rdb username query)

/-- Final value of the shared `monthly_content` variable: the content read
by the last cache hit of the month loop (the variable is reassigned at each
cache hit and read late by every cached unit's lambda). -/
def lastCachedContent (tasks : List MTask) : Option String :=
  tasks.foldl (fun acc t =>
    match t with
    | .cachedHit _ _ c => some c
    | _ => acc) none

/-- One LLM chain invocation of the yearly-issues pipeline, with the
template inputs passed to it. -/
inductive LLMCall where
  | monthly (company : String) (year month : Nat) (articles : String)
  | yearly (company : String) (year : Nat) (articles : String)
deriving DecidableEq

/-- The per-unit failure content produced by the `except` handler of a
generation task (lines 232-234 and 249-251). -/
def failText (e : String) : String :=
  "보고서 생성 실패: " ++ e

/-- The `asyncio.gather` of the monthly tasks (line 180).  A fresh task
(`_async_generate_monthly_report_task`, lines 219-234) invokes the LLM —
`.error` standing for the exception that escapes the bounded-retry wrapper
— and on success post-processes and persists under (username, "monthly",
query, year, month); on failure it returns the per-unit failure message as
content, persisting nothing.  A cached unit's result is the triple its
`lambda` reads late from the shared loop variables `year`, `month` and
`monthly_content`: the lambda body runs on an executor thread no earlier
than the first suspension after its creation, by which point the loops have
moved past the creating iteration; this model fixes the deterministic
schedule in which all these lambdas run once the enumeration loop has
finished, so each reads the final values (the last enumerated year, month
12, and the last cache hit's content).  Returns (results in task order,
report store, clock, LLM-invocation trace in task order). -/
def runMonthlyTasks (llm : LLMCall → Except String String) (username query : String)
    (finalYear finalMonth : Nat) (lastC : Option String) :
    List MTask → List ReportRow → Nat →
      List (Nat × Nat × String) × List ReportRow × Nat × List LLMCall
  | [], rdb, clock => ([], rdb, clock, [])
  | t :: ts, rdb, clock =>
    match t with
    | .cachedHit _ _ _ =>
      let rest := runMonthlyTasks llm username query finalYear finalMonth lastC ts rdb clock
      ((finalYear, finalMonth, lastC.getD "") :: rest.1, rest.2.1, rest.2.2.1, rest.2.2.2)
    | .fresh y m txt =>
      match llm (.monthly query y m txt) with
      | .ok raw =>
        let content := _postprocess_report_output raw
        let rdb2 := (save_report_to_db rdb clock username "monthly" query content y (some m)).2
        let rest := runMonthlyTasks llm username query finalYear finalMonth lastC ts rdb2 (clock + 1)
        ((y, m, content) :: rest.1, rest.2.1, rest.2.2.1, .monthly query y m txt :: rest.2.2.2)
      | .error e =>
        let rest := runMonthlyTasks llm username query finalYear finalMonth lastC ts rdb clock
        ((y, m, failText e) :: rest.1, rest.2.1, rest.2.2.1, .monthly query y m txt :: rest.2.2.2)

/-- Appending one monthly result content to the dict entry of its year
(`monthly_summaries`, lines 181-186): Python dict insertion order, contents
appended in result order. -/
def addSummary (y : Nat) (c : String) : List (Nat × List String) → List (Nat × List String)
  | [] => [(y, [c])]
  | (y0, cs) :: rest =>
    if y0 == y then (y0, cs ++ [c]) :: rest else (y0, cs) :: addSummary y c rest

/-- `monthly_summaries` built from the gathered results. -/
def summariesOf (results : List (Nat × Nat × String)) : List (Nat × List String) :=
  results.foldl (fun acc r => addSummary r.1 r.2.2 acc) []

/-- Dict lookup in `monthly_summaries`. -/
def summaryFor (s : List (Nat × List String)) (y : Nat) : Option (List String) :=
  (s.find? (fun p => p.1 == y)).map (fun p => p.2)

/-- The yearly loop before the gather (lines 188-200) over an explicit
year list: for each year that has monthly summaries, either take the
cached yearly report's content or schedule a yearly task whose input is
the delimiter-joined monthly contents of that dict entry.  Returns
(cached (year, content) pairs, scheduled (year, combined-input) tasks),
each in year order. -/
def yearlyPlanGo (summaries : List (Nat × List String)) (rdb : List ReportRow)
    (username query : String) : List Nat → List (Nat × String) × List (Nat × String)
  | [] => ([], [])
  | y :: ys =>
    let acc := yearlyPlanGo summaries rdb username query ys
    match summaryFor summaries y with
    | none => acc
    | some cs =>
      match load_reports_from_db rdb (some username) (some "yearly") (some query)
          (some y) none with
      | c :: _ => ((y, c.content) :: acc.1, acc.2)
      | [] => (acc.1, (y, joinSep "\n---\n" cs) :: acc.2)

/-- The yearly loop over the year range of the articles. -/
def yearlyPlan (summaries : List (Nat × List String)) (rdb : List ReportRow)
    (username query : String) (minY maxY : Nat) :
    List (Nat × String) × List (Nat × String) :=
  yearlyPlanGo summaries rdb username query (yearsRange minY maxY)

/-- The gather of the yearly tasks (`_async_generate_yearly_report_task`,
lines 236-251): invoke, post-process, persist under (username, "yearly",
query, year, NULL month); a failure yields the per-unit failure message as
that year's content, persisting nothing. -/
def runYearlyTasks (llm : LLMCall → Except String String) (username query : String) :
    List (Nat × String) → List ReportRow → Nat →
      List (Nat × String) × List ReportRow × Nat × List LLMCall
  | [], rdb, clock => ([], rdb, clock, [])
  | (y, combined) :: ts, rdb, clock =>
    match llm (.yearly query y combined) with
    | .ok raw =>
      let content := _postprocess_report_output raw
      let rdb2 := (save_report_to_db rdb clock username "yearly" query content y none).2
      let rest := runYearlyTasks llm username query ts rdb2 (clock + 1)
      ((y, content) :: rest.1, rest.2.1, rest.2.2.1, .yearly query y combined :: rest.2.2.2)
    | .error e =>
      let rest := runYearlyTasks llm username query ts rdb clock
      ((y, failText e) :: rest.1, rest.2.1, rest.2.2.1, .yearly query y combined :: rest.2.2.2)

/-- The final page body (lines 210-212): the yearly texts joined newest
year first. -/
def finalPage (texts : List (Nat × String)) (minY maxY : Nat) : String :=
  joinSep "\n\n---\n\n"
    ((yearsRange minY maxY).reverse.filterMap (fun y =>
      (texts.find? (fun p => p.1 == y)).map (fun p => p.2)))

/-- The fixed page heading. -/
def page1Header : String := "## 1. 연도별 핵심 이슈\n\n"

/-- The whole monthly stage of `_generate_page_1_yearly_issues`: task
decomposition against the stores, then the gather. -/
def monthlyPhase (llm : LLMCall → Except String String) (adb : List ArticleRow)
    (rdb : List ReportRow) (clock : Nat) (query username : String) :
    List (Nat × Nat × String) × List ReportRow × Nat × List LLMCall :=
  runMonthlyTasks llm username query (maxYearOf (parsedRows adb username)) 12
    (lastCachedContent (monthlyTasks (parsedRows adb username) rdb username query))
    (monthlyTasks (parsedRows adb username) rdb username query) rdb clock

/-- The yearly loop run against the store as left by the monthly stage. -/
def yearlyPlanPhase (llm : LLMCall → Except String String) (adb : List ArticleRow)
    (rdb : List ReportRow) (clock : Nat) (query username : String) :
    List (Nat × String) × List (Nat × String) :=
  yearlyPlan (summariesOf (monthlyPhase llm adb rdb clock query username).1)
    (monthlyPhase llm adb rdb clock query username).2.1 username query
    (minYearOf (parsedRows adb username)) (maxYearOf (parsedRows adb username))

/-- The gather of the yearly tasks scheduled by the yearly loop. -/
def yearlyPhase (llm : LLMCall → Except String String) (adb : List ArticleRow)
    (rdb : List ReportRow) (clock : Nat) (query username : String) :
    List (Nat × String) × List ReportRow × Nat × List LLMCall :=
  runYearlyTasks llm username query (yearlyPlanPhase llm adb rdb clock query username).2
    (monthlyPhase llm adb rdb clock query username).2.1
    (monthlyPhase llm adb rdb clock query username).2.2.1

/-- `_generate_page_1_yearly_issues(query, username)`
(`async_report_generator.py` lines 109-217) over the LLM oracle `llm`, the
article store `adb` and the report store `rdb`.  `Except.error` is an
exception escaping the function: with articles present but no parseable
publish date, `int(df["year"].min())` receives `NaN` and raises
`ValueError` before the `pd.isna` guard of line 132 can run.  Returns
(result, final report store, LLM-invocation trace). -/
def _generate_page_1_yearly_issues (llm : LLMCall → Except String String)
    (adb : List ArticleRow) (rdb : List ReportRow) (clock : Nat)
    (query username : String) : Except String String × List ReportRow × List LLMCall :=
  let arts := adb.filter (fun a => a.username == username)
  if arts.isEmpty then
    (.ok (page1Header ++ "데이터베이스에 크롤링된 기사가 없습니다. 먼저 뉴스를 크롤링하고 임베딩하세요."), rdb, [])
  else
    let parsed := parsedRows adb username
    if parsed.isEmpty then (.error "cannot convert float NaN to integer", rdb, [])
    else
      if (monthlyTasks parsed rdb username query).isEmpty then
        (.ok (page1Header ++ "분석할 월별 데이터가 없습니다."), rdb, [])
      else
        let plan := yearlyPlanPhase llm adb rdb clock query username
        let yr := yearlyPhase llm adb rdb clock query username
        let texts := plan.1 ++ yr.1
        let page :=
          if texts.isEmpty then page1Header ++ "분석할 연간 데이터가 없습니다."
          else page1Header ++ finalPage texts (minYearOf parsed) (maxYearOf parsed)
        (.ok page, yr.2.1, (monthlyPhase llm adb rdb clock query username).2.2.2 ++ yr.2.2.2)

/-- C8.  With zero stored articles the pipeline returns the "no data"
placeholder, as claimed; but with articles whose publish dates are all
unparseable, `int(df["year"].min())` is applied to `NaN` and raises
`ValueError` — the `pd.isna` guard written for that case (line 132, which
would return the "no valid year information" placeholder) is dead code, so
the second half of the claim fails on the code. -/
theorem yearly_issues_no_data_paths :
    (_generate_page_1_yearly_issues (fun _ => .error "no llm") [] [] 0
        "Nobody Inc" "bob").1 =
      .ok "## 1. 연도별 핵심 이슈\n\n데이터베이스에 크롤링된 기사가 없습니다. 먼저 뉴스를 크롤링하고 임베딩하세요." ∧
    (_generate_page_1_yearly_issues (fun _ => .error "no llm")
        [⟨"bob", "T", some "not-a-date", none, "body", "http://u", some "Nobody Inc"⟩]
        [] 0 "Nobody Inc" "bob").1 =
      .error "cannot convert float NaN to integer" := by decide

/-- C3.  The cached-month path wraps `(year, month, monthly_content)` in a
late-binding lambda, so a cached unit's tuple is read only after the
enumeration loop has advanced.  With a cached monthly artifact "A" for
2022-05 and a fresh unit for 2023-07, the cached content is attributed to
the final loop year: the single yearly LLM invocation for 2023 receives
"A" joined with 2023-07's output as its input, and 2022 — a year with a
completed monthly result — gets no yearly artifact at all, contrary to the
claim that each year's yearly prompt input is exactly that year's own
monthly outputs. -/
theorem yearly_input_misattributes_cached_month :
    (_generate_page_1_yearly_issues
        (fun c =>
          match c with
          | .monthly _ _ _ _ => .ok "M7"
          | .yearly _ _ _ => .ok "Y23")
        [⟨"alice", "t1", some "2022-05-10", none, "body1", "http://u1", some "Acme"⟩,
         ⟨"alice", "t2", some "2023-07-01", none, "body2", "http://u2", some "Acme"⟩]
        [⟨"alice", "monthly", "Acme", 2022, some 5, "A", 0⟩]
        1 "Acme" "alice").2.2 =
      [LLMCall.monthly "Acme" 2023 7
        "**제목:** t2\n**작성일:** 2023-07-01\n**기사 본문:** body2",
       LLMCall.yearly "Acme" 2023 "A\n---\nM7"] ∧
    ((_generate_page_1_yearly_issues
        (fun c =>
          match c with
          | .monthly _ _ _ _ => .ok "M7"
          | .yearly _ _ _ => .ok "Y23")
        [⟨"alice", "t1", some "2022-05-10", none, "body1", "http://u1", some "Acme"⟩,
         ⟨"alice", "t2", some "2023-07-01", none, "body2", "http://u2", some "Acme"⟩]
        [⟨"alice", "monthly", "Acme", 2022, some 5, "A", 0⟩]
        1 "Acme" "alice").2.1.any
      (fun r => r.report_type == "yearly" && r.year == 2022)) = false ∧
    ((_generate_page_1_yearly_issues
        (fun c =>
          match c with
          | .monthly _ _ _ _ => .ok "M7"
          | .yearly _ _ _ => .ok "Y23")
        [⟨"alice", "t1", some "2022-05-10", none, "body1", "http://u1", some "Acme"⟩,
         ⟨"alice", "t2", some "2023-07-01", none, "body2", "http://u2", some "Acme"⟩]
        [⟨"alice", "monthly", "Acme", 2022, some 5, "A", 0⟩]
        1 "Acme" "alice").2.1.any
      (fun r => r.report_type == "yearly" && r.year == 2023)) = true := by decide

/-- The (year, month) key of a scheduled monthly unit. -/
def taskKey : MTask → Nat × Nat
  | .cachedHit y m _ => (y, m)
  | .fresh y m _ => (y, m)

theorem mem_save_report (db : List ReportRow) (clock : Nat) (u t q c : String)
    (y : Nat) (m : Option Nat) (r : ReportRow) (hr : r ∈ db) :
    r ∈ (save_report_to_db db clock u t q c y m).2 := by
  simp only [save_report_to_db]
  split
  · split
    · exact hr
    · split
      · exact hr
      · exact List.mem_append_left _ hr
  · split
    · exact hr
    · split
      · exact hr
      · exact List.mem_append_left _ hr

theorem run_monthly_mono (llm : LLMCall → Except String String) (u q : String)
    (fy fm : Nat) (lc : Option String) (ts : List MTask) :
    ∀ (rdb : List ReportRow) (clock : Nat) (r : ReportRow), r ∈ rdb →
      r ∈ (runMonthlyTasks llm u q fy fm lc ts rdb clock).2.1 := by
  induction ts with
  | nil => intro rdb clock r hr; simpa [runMonthlyTasks] using hr
  | cons t ts ih =>
    intro rdb clock r hr
    cases t with
    | cachedHit y m c =>
      simpa only [runMonthlyTasks] using ih rdb clock r hr
    | fresh y m txt =>
      cases hllm : llm (.monthly q y m txt) with
      | ok raw =>
        simp only [runMonthlyTasks, hllm]
        exact ih _ _ r (mem_save_report _ _ _ _ _ _ _ _ r hr)
      | error e =>
        simp only [runMonthlyTasks, hllm]
        exact ih rdb clock r hr

theorem run_yearly_mono (llm : LLMCall → Except String String) (u q : String)
    (ts : List (Nat × String)) :
    ∀ (rdb : List ReportRow) (clock : Nat) (r : ReportRow), r ∈ rdb →
      r ∈ (runYearlyTasks llm u q ts rdb clock).2.1 := by
  induction ts with
  | nil => intro rdb clock r hr; simpa [runYearlyTasks] using hr
  | cons t ts ih =>
    intro rdb clock r hr
    obtain ⟨y, combined⟩ := t
    cases hllm : llm (.yearly q y combined) with
    | ok raw =>
      simp only [runYearlyTasks, hllm]
      exact ih _ _ r (mem_save_report _ _ _ _ _ _ _ _ r hr)
    | error e =>
      simp only [runYearlyTasks, hllm]
      exact ih rdb clock r hr

theorem run_monthly_fail_result (llm : LLMCall → Except String String) (u q : String)
    (fy fm : Nat) (lc : Option String) (y m : Nat) (txt e : String)
    (hfail : llm (.monthly q y m txt) = .error e) :
    ∀ (ts : List MTask) (rdb : List ReportRow) (clock : Nat),
      MTask.fresh y m txt ∈ ts →
      (y, m, failText e) ∈ (runMonthlyTasks llm u q fy fm lc ts rdb clock).1 := by
  intro ts
  induction ts with
  | nil => intro rdb clock h; simp at h
  | cons t ts ih =>
    intro rdb clock h
    rcases List.mem_cons.mp h with heq | hmem
    · rw [← heq]
      simp only [runMonthlyTasks, hfail]
      exact List.mem_cons_self _ _
    · cases t with
      | cachedHit y0 m0 c0 =>
        simp only [runMonthlyTasks]
        exact List.mem_cons_of_mem _ (ih rdb clock hmem)
      | fresh y0 m0 t0 =>
        cases hllm : llm (.monthly q y0 m0 t0) with
        | ok raw =>
          simp only [runMonthlyTasks, hllm]
          exact List.mem_cons_of_mem _ (ih _ _ hmem)
        | error e0 =>
          simp only [runMonthlyTasks, hllm]
          exact List.mem_cons_of_mem _ (ih rdb clock hmem)

/-- Any row that would make a monthly insert for (q, y, m) collide, either
with the duplicate pre-check or with the UNIQUE constraint. -/
def monthlyKeyClash (db : List ReportRow) (q : String) (y m : Nat) : Bool :=
  db.any (fun r => r.report_type == "monthly" && r.company == q &&
    r.year == y && r.month == some m)

theorem save_monthly_inserts (db : List ReportRow) (clock : Nat) (u q c : String)
    (y m : Nat) (h : monthlyKeyClash db q y m = false) :
    (save_report_to_db db clock u "monthly" q c y (some m)).2 =
      db ++ [⟨u, "monthly", q, y, some m, c, clock⟩] := by
  have hdup : (db.any (fun r => r.username == u && r.report_type == "monthly" &&
      r.company == q && r.year == y && monthParamEq r.month (some m))) = false := by
    simp only [monthlyKeyClash, List.any_eq_false] at h
    simp only [List.any_eq_false]
    intro r hr
    have hh := h r hr
    simp only [monthParamEq, Bool.and_eq_true, beq_iff_eq, not_and] at hh ⊢
    tauto
  have huv : (db.any (fun r => r.report_type == "monthly" && r.company == q &&
      r.year == y && r.month == some m)) = false := h
  simp [save_report_to_db, hdup, huv]

theorem monthlyKeyClash_append (db : List ReportRow) (row : ReportRow) (q : String)
    (y m : Nat) :
    monthlyKeyClash (db ++ [row]) q y m =
      (monthlyKeyClash db q y m ||
        (row.report_type == "monthly" && row.company == q &&
          row.year == y && row.month == some m)) := by
  simp [monthlyKeyClash, List.any_append]

theorem monthsList_pairwise : List.Pairwise (· < ·) monthsList :=
  List.Pairwise.map _ (fun _ _ h => Nat.add_lt_add_right h 1) (List.pairwise_lt_range 12)

theorem yearsRange_pairwise (lo hi : Nat) : List.Pairwise (· < ·) (yearsRange lo hi) :=
  List.Pairwise.map _ (fun _ _ h => Nat.add_lt_add_left h lo)
    (List.pairwise_lt_range (hi + 1 - lo))

theorem monthUnitsMonths_mem (yr : List PRow) (y : Nat) :
    ∀ (ms : List Nat) (u0 : Nat × Nat × List PRow), u0 ∈ monthUnitsMonths yr y ms →
      u0.1 = y ∧ u0.2.1 ∈ ms := by
  intro ms
  induction ms with
  | nil => intro u0 h; simp [monthUnitsMonths] at h
  | cons m ms ih =>
    intro u0 h
    simp only [monthUnitsMonths] at h
    split at h
    · have hh := ih u0 h
      exact ⟨hh.1, List.mem_cons_of_mem _ hh.2⟩
    · rcases List.mem_cons.mp h with heq | hmem
      · subst heq
        exact ⟨rfl, List.mem_cons_self _ _⟩
      · have hh := ih u0 hmem
        exact ⟨hh.1, List.mem_cons_of_mem _ hh.2⟩

theorem monthUnitsMonths_pairwise (yr : List PRow) (y : Nat) :
    ∀ (ms : List Nat), List.Pairwise (· < ·) ms →
      List.Pairwise (fun a b : Nat × Nat × List PRow => a.2.1 < b.2.1)
        (monthUnitsMonths yr y ms) := by
  intro ms
  induction ms with
  | nil => intro _; simp [monthUnitsMonths]
  | cons m ms ih =>
    intro hp
    rw [List.pairwise_cons] at hp
    simp only [monthUnitsMonths]
    split
    · exact ih hp.2
    · refine List.pairwise_cons.mpr ⟨?_, ih hp.2⟩
      intro b hb
      exact hp.1 _ (monthUnitsMonths_mem yr y ms b hb).2

theorem monthUnitsGo_mem (parsed : List PRow) (q : String) :
    ∀ (ys : List Nat) (u0 : Nat × Nat × List PRow), u0 ∈ monthUnitsGo parsed q ys →
      u0.1 ∈ ys := by
  intro ys
  induction ys with
  | nil => intro u0 h; simp [monthUnitsGo] at h
  | cons y ys ih =>
    intro u0 h
    simp only [monthUnitsGo] at h
    split at h
    · exact List.mem_cons_of_mem _ (ih u0 h)
    · rcases List.mem_append.mp h with hl | hr
      · rw [(monthUnitsMonths_mem _ y monthsList u0 hl).1]
        exact List.mem_cons_self _ _
      · exact List.mem_cons_of_mem _ (ih u0 hr)

theorem monthUnitsGo_pairwise (parsed : List PRow) (q : String) :
    ∀ (ys : List Nat), List.Pairwise (· < ·) ys →
      List.Pairwise (fun a b : Nat × Nat × List PRow =>
        a.1 < b.1 ∨ (a.1 = b.1 ∧ a.2.1 < b.2.1)) (monthUnitsGo parsed q ys) := by
  intro ys
  induction ys with
  | nil => intro _; simp [monthUnitsGo]
  | cons y ys ih =>
    intro hp
    rw [List.pairwise_cons] at hp
    simp only [monthUnitsGo]
    split
    · exact ih hp.2
    · rw [List.pairwise_append]
      refine ⟨?_, ih hp.2, ?_⟩
      · refine List.Pairwise.imp_of_mem ?_ (monthUnitsMonths_pairwise _ y monthsList monthsList_pairwise)
        intro a b ha hb hlt
        exact Or.inr ⟨by rw [(monthUnitsMonths_mem _ y monthsList a ha).1,
          (monthUnitsMonths_mem _ y monthsList b hb).1], hlt⟩
      · intro a ha b hb
        exact Or.inl (by
          rw [(monthUnitsMonths_mem _ y monthsList a ha).1]
          exact hp.1 _ (monthUnitsGo_mem parsed q ys b hb))

theorem taskKey_taskOfUnit (rdb : List ReportRow) (u q : String)
    (unit : Nat × Nat × List PRow) :
    taskKey (taskOfUnit rdb u q unit) = (unit.1, unit.2.1) := by
  simp only [taskOfUnit]
  split <;> rfl

theorem monthlyTasks_pairwise_keys (parsed : List PRow) (rdb : List ReportRow)
    (u q : String) :
    List.Pairwise (fun a b => taskKey a ≠ taskKey b) (monthlyTasks parsed rdb u q) := by
  unfold monthlyTasks monthUnits
  refine List.Pairwise.map _ ?_ (monthUnitsGo_pairwise parsed q _ (yearsRange_pairwise _ _))
  intro a b hab
  rw [taskKey_taskOfUnit, taskKey_taskOfUnit]
  intro hc
  injection hc with e1 e2
  rcases hab with h | ⟨h1, h2⟩ <;> omega

theorem run_monthly_persists (llm : LLMCall → Except String String) (u q : String)
    (fy fm : Nat) (lc : Option String) :
    ∀ (ts : List MTask) (rdb : List ReportRow) (clock : Nat),
      List.Pairwise (fun a b => taskKey a ≠ taskKey b) ts →
      (∀ t ∈ ts, monthlyKeyClash rdb q (taskKey t).1 (taskKey t).2 = false) →
      ∀ (y m : Nat) (txt raw : String), MTask.fresh y m txt ∈ ts →
        llm (.monthly q y m txt) = .ok raw →
        ∃ tsp, (⟨u, "monthly", q, y, some m, _postprocess_report_output raw, tsp⟩ : ReportRow) ∈
          (runMonthlyTasks llm u q fy fm lc ts rdb clock).2.1 := by
  intro ts
  induction ts with
  | nil => intro rdb clock _ _ y m txt raw h _; simp at h
  | cons t ts ih =>
    intro rdb clock hpw hclash y m txt raw hmem hok
    rw [List.pairwise_cons] at hpw
    rcases List.mem_cons.mp hmem with heq | hmem'
    · subst heq
      have hcl := hclash _ (List.mem_cons_self _ _)
      simp only [taskKey] at hcl
      simp only [runMonthlyTasks, hok]
      refine ⟨clock, ?_⟩
      rw [save_monthly_inserts rdb clock u q (_postprocess_report_output raw) y m hcl]
      exact run_monthly_mono llm u q fy fm lc ts _ _ _
        (List.mem_append_right _ (List.mem_singleton.mpr rfl))
    · cases t with
      | cachedHit y0 m0 c0 =>
        simp only [runMonthlyTasks]
        exact ih rdb clock hpw.2 (fun t' ht' => hclash t' (List.mem_cons_of_mem _ ht'))
          y m txt raw hmem' hok
      | fresh y0 m0 t0 =>
        cases hllm : llm (.monthly q y0 m0 t0) with
        | error e0 =>
          simp only [runMonthlyTasks, hllm]
          exact ih rdb clock hpw.2 (fun t' ht' => hclash t' (List.mem_cons_of_mem _ ht'))
            y m txt raw hmem' hok
        | ok raw0 =>
          simp only [runMonthlyTasks, hllm]
          have hcl0 := hclash _ (List.mem_cons_self _ _)
          simp only [taskKey] at hcl0
          rw [save_monthly_inserts rdb clock u q (_postprocess_report_output raw0) y0 m0 hcl0]
          refine ih _ _ hpw.2 ?_ y m txt raw hmem' hok
          intro t' ht'
          rw [monthlyKeyClash_append, hclash t' (List.mem_cons_of_mem _ ht'), Bool.false_or]
          rcases hk : taskKey t' with ⟨k1, k2⟩
          have hne := hpw.1 t' ht'
          rw [hk] at hne
          have hne2 : (y0, m0) ≠ (k1, k2) := hne
          by_cases h1 : y0 = k1
          · have h2 : m0 ≠ k2 := fun h2 => hne2 (by rw [h1, h2])
            simp [h1, h2]
          · simp [h1]

/-- Any row that would make the yearly duplicate pre-check for
(u, q, year) skip the insert. -/
def yearlyRowFor (db : List ReportRow) (u q : String) (y : Nat) : Bool :=
  db.any (fun r => r.username == u && r.report_type == "yearly" && r.company == q &&
    r.year == y && r.month == none)

theorem save_yearly_inserts (db : List ReportRow) (clock : Nat) (u q c : String)
    (y : Nat) (h : yearlyRowFor db u q y = false) :
    (save_report_to_db db clock u "yearly" q c y none).2 =
      db ++ [⟨u, "yearly", q, y, none, c, clock⟩] := by
  have hdup : (db.any (fun r => r.username == u && r.report_type == "yearly" &&
      r.company == q && r.year == y && r.month == none)) = false := h
  simp [save_report_to_db, hdup]

theorem yearlyRowFor_append (db : List ReportRow) (row : ReportRow) (u q : String)
    (y : Nat) :
    yearlyRowFor (db ++ [row]) u q y =
      (yearlyRowFor db u q y ||
        (row.username == u && row.report_type == "yearly" && row.company == q &&
          row.year == y && row.month == none)) := by
  simp [yearlyRowFor, List.any_append]

theorem run_yearly_persists (llm : LLMCall → Except String String) (u q : String) :
    ∀ (ts : List (Nat × String)) (rdb : List ReportRow) (clock : Nat),
      List.Pairwise (fun a b : Nat × String => a.1 ≠ b.1) ts →
      (∀ t ∈ ts, yearlyRowFor rdb u q t.1 = false) →
      ∀ (y : Nat) (comb raw : String), (y, comb) ∈ ts →
        llm (.yearly q y comb) = .ok raw →
        ∃ tsp, (⟨u, "yearly", q, y, none, _postprocess_report_output raw, tsp⟩ : ReportRow) ∈
          (runYearlyTasks llm u q ts rdb clock).2.1 := by
  intro ts
  induction ts with
  | nil => intro rdb clock _ _ y comb raw h _; simp at h
  | cons t ts ih =>
    intro rdb clock hpw hrows y comb raw hmem hok
    rw [List.pairwise_cons] at hpw
    rcases List.mem_cons.mp hmem with heq | hmem'
    · have hrw := hrows _ (List.mem_cons_self _ _)
      rw [← heq] at hrw ⊢
      simp only [runYearlyTasks, hok]
      refine ⟨clock, ?_⟩
      rw [save_yearly_inserts rdb clock u q (_postprocess_report_output raw) y hrw]
      exact run_yearly_mono llm u q ts _ _ _
        (List.mem_append_right _ (List.mem_singleton.mpr rfl))
    · obtain ⟨y0, c0⟩ := t
      cases hllm : llm (.yearly q y0 c0) with
      | error e0 =>
        simp only [runYearlyTasks, hllm]
        exact ih rdb clock hpw.2 (fun t' ht' => hrows t' (List.mem_cons_of_mem _ ht'))
          y comb raw hmem' hok
      | ok raw0 =>
        simp only [runYearlyTasks, hllm]
        have hr0 := hrows _ (List.mem_cons_self _ _)
        rw [save_yearly_inserts rdb clock u q (_postprocess_report_output raw0) y0 hr0]
        refine ih _ _ hpw.2 ?_ y comb raw hmem' hok
        intro t' ht'
        rw [yearlyRowFor_append, hrows t' (List.mem_cons_of_mem _ ht'), Bool.false_or]
        have hne : y0 ≠ t'.1 := hpw.1 t' ht'
        simp [hne]

theorem yearlyPlanGo_mem_tasks (s : List (Nat × List String)) (rdb : List ReportRow)
    (u q : String) :
    ∀ (ys : List Nat) (y : Nat) (c : String), (y, c) ∈ (yearlyPlanGo s rdb u q ys).2 →
      y ∈ ys ∧ load_reports_from_db rdb (some u) (some "yearly") (some q) (some y) none = [] := by
  intro ys
  induction ys with
  | nil => intro y c h; simp [yearlyPlanGo] at h
  | cons y0 ys ih =>
    intro y c h
    simp only [yearlyPlanGo] at h
    split at h
    · have hh := ih y c h
      exact ⟨List.mem_cons_of_mem _ hh.1, hh.2⟩
    · rename_i cs hs
      split at h
      · have hh := ih y c h
        exact ⟨List.mem_cons_of_mem _ hh.1, hh.2⟩
      · rename_i hload
        rcases List.mem_cons.mp h with heq | hmem
        · have hy : y = y0 := congrArg Prod.fst heq
          subst hy
          exact ⟨List.mem_cons_self _ _, hload⟩
        · have hh := ih y c hmem
          exact ⟨List.mem_cons_of_mem _ hh.1, hh.2⟩

theorem yearlyPlanGo_tasks_pairwise (s : List (Nat × List String)) (rdb : List ReportRow)
    (u q : String) :
    ∀ (ys : List Nat), List.Pairwise (· < ·) ys →
      List.Pairwise (fun a b : Nat × String => a.1 < b.1) (yearlyPlanGo s rdb u q ys).2 := by
  intro ys
  induction ys with
  | nil => intro _; simp [yearlyPlanGo]
  | cons y0 ys ih =>
    intro hp
    rw [List.pairwise_cons] at hp
    simp only [yearlyPlanGo]
    split
    · exact ih hp.2
    · split
      · exact ih hp.2
      · refine List.pairwise_cons.mpr ⟨?_, ih hp.2⟩
        intro b hb
        obtain ⟨b1, b2⟩ := b
        exact hp.1 _ (yearlyPlanGo_mem_tasks s rdb u q ys b1 b2 hb).1

theorem insertTsDesc_ne_nil (r : ReportRow) (l : List ReportRow) :
    insertTsDesc r l ≠ [] := by
  cases l with
  | nil => simp [insertTsDesc]
  | cons x xs =>
    simp only [insertTsDesc]
    split <;> simp

theorem sortTsDesc_eq_nil (l : List ReportRow) : sortTsDesc l = [] ↔ l = [] := by
  cases l with
  | nil => simp [sortTsDesc]
  | cons x xs =>
    simp only [sortTsDesc, List.foldr]
    constructor
    · intro h
      exact absurd h (insertTsDesc_ne_nil x _)
    · intro h
      simp at h

theorem load_empty_no_yearly_row (db : List ReportRow) (u q : String) (y : Nat)
    (h : load_reports_from_db db (some u) (some "yearly") (some q) (some y) none = []) :
    yearlyRowFor db u q y = false := by
  by_contra hne
  rw [Bool.not_eq_false] at hne
  obtain ⟨r, hr, hpred⟩ := List.any_eq_true.mp hne
  simp only [Bool.and_eq_true, beq_iff_eq] at hpred
  obtain ⟨⟨⟨⟨h1, h2⟩, h3⟩, h4⟩, h5⟩ := hpred
  have hrf : r ∈ db.filter (rowMatches (some u) (some "yearly") (some q) (some y) none) := by
    refine List.mem_filter.mpr ⟨hr, ?_⟩
    simp [rowMatches, truthyS, truthyN, h1, h2, h3, h4, h5]
  rw [load_reports_from_db, sortTsDesc_eq_nil] at h
  rw [h] at hrf
  simp at hrf

theorem monthUnitsGo_nil (q : String) : ∀ (ys : List Nat), monthUnitsGo [] q ys = [] := by
  intro ys
  induction ys with
  | nil => rfl
  | cons y ys ih => simp [monthUnitsGo, ih]

/-- C4.  Partial failure isolation over a fresh report store: for every
article store, LLM oracle and failing monthly unit (the LLM invocation for
that unit's prompt exhausts its retries and raises), the gathered monthly
results still carry that unit's (year, month) with the per-unit failure
message as its content instead of a propagated exception, while every
other monthly unit whose invocation succeeds is persisted in the final
store, and every scheduled yearly unit whose invocation succeeds is
persisted as that year's yearly artifact. -/
theorem monthly_failure_isolation (llm : LLMCall → Except String String)
    (adb : List ArticleRow) (clock : Nat) (q u : String) (y m : Nat) (txt e : String)
    (htask : MTask.fresh y m txt ∈ monthlyTasks (parsedRows adb u) [] u q)
    (hfail : llm (.monthly q y m txt) = .error e) :
    ((y, m, failText e) ∈ (monthlyPhase llm adb [] clock q u).1) ∧
    (∀ (y' m' : Nat) (txt' raw : String),
      MTask.fresh y' m' txt' ∈ monthlyTasks (parsedRows adb u) [] u q →
      llm (.monthly q y' m' txt') = .ok raw →
      ∃ tsp, (⟨u, "monthly", q, y', some m', _postprocess_report_output raw, tsp⟩ : ReportRow) ∈
        (_generate_page_1_yearly_issues llm adb [] clock q u).2.1) ∧
    (∀ (y' : Nat) (comb raw : String),
      (y', comb) ∈ (yearlyPlanPhase llm adb [] clock q u).2 →
      llm (.yearly q y' comb) = .ok raw →
      ∃ tsp, (⟨u, "yearly", q, y', none, _postprocess_report_output raw, tsp⟩ : ReportRow) ∈
        (_generate_page_1_yearly_issues llm adb [] clock q u).2.1) := by
  have hparsedne : parsedRows adb u ≠ [] := by
    intro h0
    rw [h0] at htask
    simp only [monthlyTasks, monthUnits, monthUnitsGo_nil, List.map_nil] at htask
    simp at htask
  have hartsne : (adb.filter (fun a => a.username == u)).isEmpty = false := by
    cases hfe : adb.filter (fun a => a.username == u) with
    | nil =>
      exfalso
      apply hparsedne
      unfold parsedRows
      rw [hfe]
      rfl
    | cons x xs => rfl
  have hparsedb : (parsedRows adb u).isEmpty = false := by
    cases hp : parsedRows adb u with
    | nil => exact absurd hp hparsedne
    | cons x xs => rfl
  have htasksb : (monthlyTasks (parsedRows adb u) [] u q).isEmpty = false := by
    cases hmt : monthlyTasks (parsedRows adb u) [] u q with
    | nil => rw [hmt] at htask; simp at htask
    | cons x xs => rfl
  have hstore : (_generate_page_1_yearly_issues llm adb [] clock q u).2.1 =
      (yearlyPhase llm adb [] clock q u).2.1 := by
    simp [_generate_page_1_yearly_issues, hartsne, hparsedb, htasksb]
  refine ⟨?_, ?_, ?_⟩
  · simp only [monthlyPhase]
    exact run_monthly_fail_result llm u q _ 12 _ y m txt e hfail _ [] clock htask
  · intro y' m' txt' raw h1 h2
    obtain ⟨tsp, hmem⟩ := run_monthly_persists llm u q (maxYearOf (parsedRows adb u)) 12
      (lastCachedContent (monthlyTasks (parsedRows adb u) [] u q))
      (monthlyTasks (parsedRows adb u) [] u q) [] clock
      (monthlyTasks_pairwise_keys _ _ _ _) (fun t _ => rfl) y' m' txt' raw h1 h2
    refine ⟨tsp, ?_⟩
    rw [hstore]
    simp only [yearlyPhase]
    exact run_yearly_mono llm u q _ _ _ _ hmem
  · intro y' comb raw h1 h2
    have hpw : List.Pairwise (fun a b : Nat × String => a.1 ≠ b.1)
        (yearlyPlanPhase llm adb [] clock q u).2 := by
      refine List.Pairwise.imp (fun hlt => Nat.ne_of_lt hlt) ?_
      simp only [yearlyPlanPhase, yearlyPlan]
      exact yearlyPlanGo_tasks_pairwise _ _ _ _ _ (yearsRange_pairwise _ _)
    have hrows : ∀ t ∈ (yearlyPlanPhase llm adb [] clock q u).2,
        yearlyRowFor (monthlyPhase llm adb [] clock q u).2.1 u q t.1 = false := by
      intro t ht
      obtain ⟨t1, t2⟩ := t
      simp only [yearlyPlanPhase, yearlyPlan] at ht
      exact load_empty_no_yearly_row _ _ _ _
        (yearlyPlanGo_mem_tasks _ _ _ _ _ t1 t2 ht).2
    obtain ⟨tsp, hmem⟩ := run_yearly_persists llm u q
      (yearlyPlanPhase llm adb [] clock q u).2
      (monthlyPhase llm adb [] clock q u).2.1
      (monthlyPhase llm adb [] clock q u).2.2.1 hpw hrows y' comb raw h1 h2
    refine ⟨tsp, ?_⟩
    rw [hstore]
    exact hmem

/-- Demonstration article store for the failure-isolation witness: alice's
Acme articles for 2022-05, 2022-06 and 2023-03. -/
def demoArticles : List ArticleRow :=
  [⟨"alice", "t1", some "2022-05-10", none, "b1", "u1", some "Acme"⟩,
   ⟨"alice", "t2", some "2022-06-05", none, "b2", "u2", some "Acme"⟩,
   ⟨"alice", "t3", some "2023-03-02", none, "b3", "u3", some "Acme"⟩]

/-- Demonstration oracle: the monthly invocation for 2022-05 throws
(simulated); every other invocation succeeds. -/
def demoLLM : LLMCall → Except String String := fun c =>
  match c with
  | .monthly _ 2022 5 _ => .error "boom"
  | .monthly _ _ _ _ => .ok "OK"
  | .yearly _ _ _ => .ok "YR"

/-- C4 witness: the 2022-05 unit throws, its gathered result carries the
failure message, and the 2022-06 monthly unit and the 2023 yearly unit are
still completed and persisted. -/
theorem monthly_failure_isolation_witness :
    (MTask.fresh 2022 5 "**제목:** t1\n**작성일:** 2022-05-10\n**기사 본문:** b1" ∈
      monthlyTasks (parsedRows demoArticles "alice") [] "alice" "Acme") ∧
    demoLLM (.monthly "Acme" 2022 5
      "**제목:** t1\n**작성일:** 2022-05-10\n**기사 본문:** b1") = .error "boom" ∧
    ((2022, 5, failText "boom") ∈ (monthlyPhase demoLLM demoArticles [] 0 "Acme" "alice").1) ∧
    (∃ tsp, (⟨"alice", "monthly", "Acme", 2022, some 6,
        _postprocess_report_output "OK", tsp⟩ : ReportRow) ∈
      (_generate_page_1_yearly_issues demoLLM demoArticles [] 0 "Acme" "alice").2.1) ∧
    (∃ tsp, (⟨"alice", "yearly", "Acme", 2023, none,
        _postprocess_report_output "YR", tsp⟩ : ReportRow) ∈
      (_generate_page_1_yearly_issues demoLLM demoArticles [] 0 "Acme" "alice").2.1) := by
  have T := monthly_failure_isolation demoLLM demoArticles 0 "Acme" "alice" 2022 5
    "**제목:** t1\n**작성일:** 2022-05-10\n**기사 본문:** b1" "boom" (by decide) (by decide)
  exact ⟨by decide, by decide, T.1,
    T.2.1 2022 6 "**제목:** t2\n**작성일:** 2022-06-05\n**기사 본문:** b2" "OK"
      (by decide) (by decide),
    T.2.2 2023 "OK" "YR" (by decide) (by decide)⟩

/-- The string `m` occurs in `s` at position `i`. -/
def occursAt (m s : List Char) (i : Nat) : Prop :=
  m <+: s.drop i

instance (m s : List Char) (i : Nat) : Decidable (occursAt m s i) :=
  inferInstanceAs (Decidable (m <+: s.drop i))

/-- Every occurrence of the two-character marker `m` is immediately
preceded by the context `nl` (and hence, for the indents used here,
begins on its own line right after its fixed indent). -/
def sepBefore (nl m s : List Char) : Prop :=
  ∀ i, occursAt m s i → nl.length ≤ i ∧ occursAt nl s (i - nl.length)

/-- Weakening of `sepBefore` that also allows an occurrence at the very
start of the text (produced when `strip()` removes the leading indent). -/
def sepBeforeW (nl m s : List Char) : Prop :=
  ∀ i, occursAt m s i → i = 0 ∨ (nl.length ≤ i ∧ occursAt nl s (i - nl.length))

/-- `m` does not occur in `s`. -/
def noOcc (m s : List Char) : Prop :=
  ∀ i, ¬ occursAt m s i

/-- A doubled newline — one blank line. -/
def dd : List Char := ['\n', '\n']

/-- Every doubled newline of `s` starts one of the guard strings in
`Gs` (each guard begins with the doubled newline itself). -/
def GuardedBy (Gs : List (List Char)) (s : List Char) : Prop :=
  ∀ i, occursAt dd s i → ∃ g ∈ Gs, occursAt g s i

theorem occursAt_nil (m : List Char) (i : Nat) (h : occursAt m [] i) : m = [] := by
  have : m <+: ([] : List Char) := by simpa [occursAt] using h
  exact List.prefix_nil.mp this

theorem occursAt_lt_length (a : Char) (t s : List Char) (i : Nat)
    (h : occursAt (a :: t) s i) : i < s.length := by
  by_contra hge
  push_neg at hge
  rw [occursAt, List.drop_eq_nil_of_le hge] at h
  have := List.prefix_nil.mp h
  simp at this

theorem occursAt_cons_succ (c : Char) (s m : List Char) (i : Nat) :
    occursAt m (c :: s) (i + 1) ↔ occursAt m s i := Iff.rfl

theorem occursAt_char (m s : List Char) (i j : Nat) (h : occursAt m s i)
    (hj : j < m.length) : (s.drop (i + j)).head? = some (m.get ⟨j, hj⟩) := by
  obtain ⟨r, hr⟩ := h
  have h1 : s.drop (i + j) = (s.drop i).drop j := by
    rw [List.drop_drop, Nat.add_comm]
  rw [h1, ← hr, List.drop_append_eq_append_drop]
  have h2 : m.drop j = m.get ⟨j, hj⟩ :: m.drop (j + 1) := List.drop_eq_getElem_cons hj
  rw [h2]
  rfl

theorem occursAt_append_right (m x y : List Char) (j : Nat) (h : occursAt m y j) :
    occursAt m (x ++ y) (x.length + j) := by
  rw [occursAt, List.drop_append_eq_append_drop]
  have h1 : x.drop (x.length + j) = [] := List.drop_eq_nil_of_le (Nat.le_add_right _ _)
  have h2 : x.length + j - x.length = j := by omega
  rw [h1, h2]
  exact h

theorem occursAt_append_left (m x y : List Char) (i : Nat) (h : occursAt m x i) :
    occursAt m (x ++ y) i := by
  rw [occursAt, List.drop_append_eq_append_drop]
  exact h.trans (List.prefix_append _ _)

theorem prefix_append_split (m u v : List Char) (h : m <+: u ++ v) :
    (m.length ≤ u.length ∧ m <+: u) ∨
      (u.length < m.length ∧ m.take u.length = u ∧ m.drop u.length <+: v) := by
  have hm : m = (u ++ v).take m.length := List.prefix_iff_eq_take.mp h
  rw [List.take_append_eq_append_take] at hm
  rcases le_or_lt m.length u.length with hle | hlt
  · left
    refine ⟨hle, ?_⟩
    have h0 : m.length - u.length = 0 := by omega
    rw [h0, List.take_zero, List.append_nil] at hm
    rw [hm]
    exact List.take_prefix _ _
  · right
    have hu : u.take m.length = u := List.take_of_length_le (by omega)
    rw [hu] at hm
    refine ⟨hlt, ?_, ?_⟩
    · rw [hm, List.take_left]
    · rw [hm, List.drop_left]
      exact List.take_prefix _ _

theorem occursAt_append_cases (m x y : List Char) (i : Nat)
    (h : occursAt m (x ++ y) i) :
    (occursAt m x i ∧ i + m.length ≤ x.length) ∨
    (i < x.length ∧ x.length < i + m.length ∧ m.take (x.length - i) = x.drop i ∧
      m.drop (x.length - i) <+: y) ∨
    (x.length ≤ i ∧ occursAt m y (i - x.length)) := by
  rw [occursAt, List.drop_append_eq_append_drop] at h
  rcases le_or_lt x.length i with hxi | hxi
  · right; right
    refine ⟨hxi, ?_⟩
    have hx0 : x.drop i = [] := List.drop_eq_nil_of_le hxi
    rw [hx0] at h
    simpa [occursAt] using h
  · have hi0 : i - x.length = 0 := by omega
    rw [hi0, List.drop_zero] at h
    rcases prefix_append_split m (x.drop i) y h with ⟨h1, h2⟩ | ⟨h1, h2, h3⟩
    · left
      rw [List.length_drop] at h1
      exact ⟨h2, by omega⟩
    · right; left
      rw [List.length_drop] at h1 h2 h3
      exact ⟨hxi, by omega, h2, h3⟩

/-- The character of `s` at position `i`, if any. -/
def charAt (s : List Char) (i : Nat) : Option Char :=
  (s.drop i).head?

theorem charAt_append_left (x y : List Char) (i : Nat) (hi : i < x.length) :
    charAt (x ++ y) i = charAt x i := by
  unfold charAt
  rw [List.drop_append_eq_append_drop]
  cases hx : x.drop i with
  | nil =>
    have := congrArg List.length hx
    simp [List.length_drop] at this
    omega
  | cons a t => rfl

theorem charAt_append_right (x y : List Char) (i : Nat) (hi : x.length ≤ i) :
    charAt (x ++ y) i = charAt y (i - x.length) := by
  unfold charAt
  rw [List.drop_append_eq_append_drop, List.drop_eq_nil_of_le hi]
  rfl

theorem charAt_mem (s : List Char) (i : Nat) (c : Char) (h : charAt s i = some c) :
    c ∈ s := by
  unfold charAt at h
  cases hx : s.drop i with
  | nil => rw [hx] at h; simp at h
  | cons a t =>
    rw [hx] at h
    simp only [List.head?_cons, Option.some.injEq] at h
    subst h
    exact (List.drop_subset i s) (hx ▸ List.mem_cons_self _ _)

theorem occursAt_charAt (m s : List Char) (i j : Nat) (h : occursAt m s i)
    (hj : j < m.length) : charAt s (i + j) = some (m.get ⟨j, hj⟩) :=
  occursAt_char m s i j h hj

theorem occursAt_drop (m s : List Char) (k i : Nat) (h : occursAt m s (k + i)) :
    occursAt m (s.drop k) i := by
  rw [occursAt, List.drop_drop]
  rw [occursAt] at h
  exact h

theorem occursAt_of_drop (m s : List Char) (k i : Nat) (h : occursAt m (s.drop k) i) :
    occursAt m s (k + i) := by
  rw [occursAt] at h ⊢
  rw [List.drop_drop] at h
  exact h

/-- The head of a `replAllF` output is either the head of the replacement
or the head of the input text. -/
theorem replAllF_head_sp (p : Char) (ps repl : List Char) (hne : repl ≠ [])
    (hrh : repl.head? ≠ some ' ') :
    ∀ (fuel : Nat) (t : List Char),
      (replAllF p ps repl fuel t).head? = some ' ' → t.head? = some ' ' := by
  intro fuel t h
  match fuel, t with
  | _, [] => simp [replAllF] at h
  | 0, c :: cs => simpa [replAllF] using h
  | fuel + 1, c :: cs =>
    simp only [replAllF] at h
    split at h
    · obtain ⟨a, r, hax⟩ : ∃ a r, repl = a :: r := by
        cases repl with
        | nil => exact absurd rfl hne
        | cons a r => exact ⟨a, r, rfl⟩
      rw [hax] at h hrh
      simp only [List.cons_append, List.head?_cons, Option.some.injEq] at h
      exact absurd (by simp [h]) hrh
    · simpa using h

/-- Marker-separation establishment: replacing every occurrence of the
marker `[M, ' ']` by `nl ++ [M, ' ']` (a newline-led indent followed by
the marker itself) leaves every marker occurrence of the result
immediately preceded by `nl`. -/
theorem replAllF_establishes (M : Char) (nl : List Char)
    (hM1 : M ≠ ' ') (hM2 : M ≠ '\n')
    (hnlhead : nl.head? = some '\n')
    (hnlws : ∀ c ∈ nl, c = '\n' ∨ c = ' ') :
    ∀ (fuel : Nat) (s : List Char), s.length ≤ fuel →
      sepBefore nl [M, ' '] (replAllF M [' '] (nl ++ [M, ' ']) fuel s) := by
  intro fuel
  induction fuel with
  | zero =>
    intro s hs
    have hs0 : s = [] := List.eq_nil_of_length_eq_zero (Nat.le_zero.mp hs)
    subst hs0
    intro i hocc
    exact absurd (occursAt_nil _ _ hocc) (by simp)
  | succ fuel ih =>
    intro s hs
    cases s with
    | nil =>
      intro i hocc
      exact absurd (occursAt_nil _ _ hocc) (by simp)
    | cons c cs =>
      by_cases hp : (M :: [' ']).isPrefixOf (c :: cs)
      · simp only [replAllF, if_pos hp]
        have hrest := ih (cs.drop 1) (by
          have := List.length_drop 1 cs
          simp only [List.length_cons] at hs
          omega)
        set rest := replAllF M [' '] (nl ++ [M, ' ']) fuel (cs.drop 1) with hrestdef
        intro i hocc
        rcases occursAt_append_cases [M, ' '] (nl ++ [M, ' ']) rest i hocc with
          ⟨hA, hAl⟩ | ⟨hB1, hB2, hB3, hB4⟩ | ⟨hC1, hC2⟩
        · simp only [List.length_append, List.length_cons, List.length_nil] at hAl
          rcases Nat.lt_or_ge i nl.length with hilt | hige
          · exfalso
            have hch := occursAt_charAt [M, ' '] (nl ++ [M, ' ']) i 0 hA (by simp)
            rw [Nat.add_zero, charAt_append_left _ _ i hilt] at hch
            have hMnl : M ∈ nl := charAt_mem nl i M (by simpa using hch)
            rcases hnlws M hMnl with h | h
            · exact hM2 h
            · exact hM1 h
          · have hieq : i = nl.length := by omega
            subst hieq
            refine ⟨le_refl _, ?_⟩
            rw [Nat.sub_self, occursAt, List.drop_zero]
            calc nl <+: nl ++ ([M, ' '] ++ rest) := List.prefix_append _ _
              _ = nl ++ [M, ' '] ++ rest := by rw [List.append_assoc]
        · exfalso
          simp only [List.length_append, List.length_cons, List.length_nil] at hB1 hB2 hB3
          have hieq : i = nl.length + 1 := by omega
          subst hieq
          have hx : (nl ++ [M, ' ']).drop (nl.length + 1) = [' '] := by
            rw [List.drop_append_eq_append_drop, List.drop_eq_nil_of_le (by omega)]
            have : nl.length + 1 - nl.length = 1 := by omega
            rw [this]
            rfl
          rw [hx] at hB3
          have htk : (nl.length + 2 - (nl.length + 1)) = 1 := by omega
          rw [htk] at hB3
          simp only [List.take_succ_cons, List.take_zero] at hB3
          exact hM1 (List.cons.inj hB3).1
        · have hxlen : (nl ++ [M, ' ']).length = nl.length + 2 := by simp
          rw [hxlen] at hC1 hC2
          have hj := hrest _ hC2
          refine ⟨by omega, ?_⟩
          have hmem := occursAt_append_right nl (nl ++ [M, ' ']) rest
            ((i - (nl.length + 2)) - nl.length) hj.2
          rw [hxlen] at hmem
          have harith : nl.length + 2 + (i - (nl.length + 2) - nl.length) = i - nl.length := by
            have := hj.1
            omega
          rw [harith] at hmem
          exact hmem
      · simp only [replAllF, if_neg hp]
        have hrest := ih cs (by simp only [List.length_cons] at hs; omega)
        set rest := replAllF M [' '] (nl ++ [M, ' ']) fuel cs with hrestdef
        intro i hocc
        cases i with
        | zero =>
          exfalso
          obtain ⟨r, hr⟩ := hocc
          simp only [occursAt, List.drop_zero] at hr
          have hc : c = M := ((List.cons.inj hr).1).symm
          have hrestsp : rest.head? = some ' ' := by
            rw [← (List.cons.inj hr).2]
            rfl
          have hcs : cs.head? = some ' ' := by
            refine replAllF_head_sp M [' '] (nl ++ [M, ' ']) ?_ ?_ fuel cs ?_
            · simp
            · cases hnl : nl with
              | nil =>
                rw [hnl] at hnlhead
                simp at hnlhead
              | cons a t =>
                have ha : a = '\n' := by
                  rw [hnl] at hnlhead
                  simpa using hnlhead
                subst ha
                intro hcontra
                rw [List.cons_append] at hcontra
                simp only [List.head?_cons, Option.some.injEq] at hcontra
                exact absurd hcontra (by decide)
            · rw [← hrestdef]
              exact hrestsp
          apply hp
          cases cs with
          | nil => simp at hcs
          | cons d ds =>
            simp only [List.head?_cons, Option.some.injEq] at hcs
            rw [hc, hcs]
            simp [List.isPrefixOf]
        | succ i =>
          rw [occursAt_cons_succ] at hocc
          have hj := hrest i hocc
          refine ⟨by omega, ?_⟩
          have harith : i + 1 - nl.length = (i - nl.length) + 1 := by omega
          rw [harith]
          rw [occursAt_cons_succ]
          exact hj.2

/-- Marker separation relative to a virtual window `w` of characters
standing before `s`: every marker occurrence in `s` is preceded by `nl`
inside `w ++ s`. -/
def sepBehind (w nl m s : List Char) : Prop :=
  ∀ i, occursAt m s i → nl.length ≤ w.length + i ∧
    occursAt nl (w ++ s) (w.length + i - nl.length)

/-- The output window can stand in for the input window: whatever prefix
of `nl` the input window ends with, the output window ends with too. -/
def winCompat (nl w w₀ : List Char) : Prop :=
  ∀ k, k ≤ nl.length → nl.take k <:+ w → nl.take k <:+ w₀

theorem sepBehind_nil (nl m s : List Char) :
    sepBehind [] nl m s ↔ sepBefore nl m s := by
  unfold sepBehind sepBefore
  simp

theorem winCompat_nil (nl : List Char) : winCompat nl [] [] := fun _ _ h => h

theorem suffix_occursAt_end (x w : List Char) (h : x <:+ w) :
    occursAt x w (w.length - x.length) := by
  obtain ⟨u, hu⟩ := h
  have hlen : w.length - x.length = u.length := by
    rw [← hu]
    simp
  rw [occursAt, hlen, ← hu, List.drop_left]

theorem occursAt_end_suffix (x w : List Char) (hlen : x.length ≤ w.length)
    (h : occursAt x w (w.length - x.length)) : x <:+ w := by
  rw [occursAt] at h
  have hdl : (w.drop (w.length - x.length)).length = x.length := by
    simp
    omega
  have hx : x = w.drop (w.length - x.length) :=
    h.eq_of_length (by rw [hdl])
  rw [hx]
  exact List.drop_suffix _ _

theorem suffix_append_short (x u v : List Char) (h : x <:+ u ++ v)
    (hl : x.length ≤ v.length) : x <:+ v := by
  rw [← List.reverse_prefix] at h ⊢
  rw [List.reverse_append] at h
  rcases prefix_append_split x.reverse v.reverse u.reverse h with ⟨_, h2⟩ | ⟨h1, _, _⟩
  · exact h2
  · simp at h1
    omega

theorem suffix_append_long (x u v : List Char) (h : x <:+ u ++ v)
    (hl : v.length < x.length) : x.drop (x.length - v.length) = v := by
  rw [← List.reverse_prefix, List.reverse_append] at h
  rcases prefix_append_split x.reverse v.reverse u.reverse h with ⟨h1, _⟩ | ⟨_, h2, _⟩
  · simp at h1
    omega
  · rw [List.length_reverse] at h2
    have hlen2 : (x.drop (x.length - v.length)).length = v.length := by
      simp
      omega
    have hrev : x.reverse.take v.length = (x.drop (x.length - v.length)).reverse := by
      conv_lhs => rw [(List.take_append_drop (x.length - v.length) x).symm]
      rw [List.reverse_append]
      rw [List.take_left' (by rw [List.length_reverse]; exact hlen2)]
    rw [hrev] at h2
    have h3 := congrArg List.reverse h2
    rwa [List.reverse_reverse, List.reverse_reverse] at h3

theorem suffix_singleton_append (x w : List Char) (c : Char) (h : x <:+ w ++ [c]) :
    x = [] ∨ ∃ x', x = x' ++ [c] ∧ x' <:+ w := by
  rw [← List.reverse_prefix, List.reverse_append] at h
  simp only [List.reverse_cons, List.reverse_nil, List.nil_append] at h
  cases hx : x.reverse with
  | nil =>
    left
    have hxx := congrArg List.reverse hx
    simpa using hxx
  | cons a t =>
    right
    rw [hx] at h
    obtain ⟨r2, hr2⟩ := h
    simp only [List.cons_append] at hr2
    have ha : a = c := (List.cons.inj hr2).1
    have ht : t <+: w.reverse := ⟨r2, (List.cons.inj hr2).2⟩
    refine ⟨t.reverse, ?_, ?_⟩
    · have hxx := congrArg List.reverse hx
      rw [List.reverse_reverse] at hxx
      rw [hxx, List.reverse_cons, ha]
    · rw [← List.reverse_prefix, List.reverse_reverse]
      exact ht

/-- Marker-separation preservation: a replacement pass whose pattern and
replacement cannot disturb the `nl`-context of the marker `[M, ' ']`
keeps every marker occurrence preceded by `nl`.  `w`/`w₀` are the virtual
windows already standing before the input and output. -/
theorem replAllF_preserves (M p : Char) (ps r nl : List Char)
    (hrne : r ≠ [])
    (hA : ∀ i, i < r.length → occursAt [M, ' '] r i →
      nl.length ≤ i ∧ occursAt nl r (i - nl.length))
    (hB : r.getLast? = some M →
      nl.length + 1 ≤ r.length ∧ occursAt nl r (r.length - 1 - nl.length))
    (hD : r.head? ≠ some ' ')
    (hCp : ∀ k, 1 ≤ k → k ≤ nl.length → k ≤ ps.length + 1 → ¬ (nl.take k <:+ (p :: ps)))
    (hCp2 : ∀ k, ps.length + 1 < k → k ≤ nl.length →
      (nl.take k).drop (k - (ps.length + 1)) ≠ (p :: ps)) :
    ∀ (fuel : Nat) (s w w₀ : List Char), s.length ≤ fuel →
      winCompat nl w w₀ → sepBehind w nl [M, ' '] s →
      sepBehind w₀ nl [M, ' '] (replAllF p ps r fuel s) := by
  intro fuel
  induction fuel with
  | zero =>
    intro s w w₀ hs _ _
    have hs0 : s = [] := List.eq_nil_of_length_eq_zero (Nat.le_zero.mp hs)
    subst hs0
    intro i hocc
    exact absurd (occursAt_nil _ _ hocc) (by simp)
  | succ fuel ih =>
    intro s w w₀ hs hW hsep
    cases s with
    | nil =>
      intro i hocc
      exact absurd (occursAt_nil _ _ hocc) (by simp)
    | cons c cs =>
      by_cases hp : (p :: ps).isPrefixOf (c :: cs)
      · simp only [replAllF, if_pos hp]
        have hpp : (p :: ps) <+: (c :: cs) := List.isPrefixOf_iff_prefix.mp hp
        have hseq : c :: cs = (p :: ps) ++ cs.drop ps.length := by
          obtain ⟨t, ht⟩ := hpp
          have ht2 : (c :: cs).drop (ps.length + 1) = t := by
            rw [← ht]
            have hpl : (p :: ps).length = ps.length + 1 := by simp
            rw [← hpl, List.drop_left]
          have ht3 : t = cs.drop ps.length := by
            rw [← ht2]
            rfl
          rw [ht3] at ht
          exact ht.symm
        have hslen : (cs.drop ps.length).length ≤ fuel := by
          simp only [List.length_drop]
          simp only [List.length_cons] at hs
          omega
        have hsfx : sepBehind (w ++ (p :: ps)) nl [M, ' '] (cs.drop ps.length) := by
          intro j hj
          have hj' : occursAt [M, ' '] (c :: cs) (ps.length + 1 + j) :=
            occursAt_of_drop [M, ' '] (c :: cs) (ps.length + 1) j hj
          obtain ⟨h1, h2⟩ := hsep _ hj'
          constructor
          · simp only [List.length_append, List.length_cons]
            omega
          · have hassoc : (w ++ (p :: ps)) ++ cs.drop ps.length = w ++ (c :: cs) := by
              rw [List.append_assoc, ← hseq]
            rw [hassoc]
            have harith : (w ++ (p :: ps)).length + j - nl.length =
                w.length + (ps.length + 1 + j) - nl.length := by
              simp only [List.length_append, List.length_cons]
              omega
            rw [harith]
            exact h2
        have hW' : winCompat nl (w ++ (p :: ps)) (w₀ ++ r) := by
          intro k hk hsuf
          rcases Nat.eq_zero_or_pos k with hk0 | hkpos
          · subst hk0
            simp only [List.take_zero]
            exact List.nil_suffix
          · exfalso
            have hktake : (nl.take k).length = k := by
              simp only [List.length_take]
              omega
            rcases le_or_lt k (ps.length + 1) with hle | hlt
            · have hsuf2 : nl.take k <:+ (p :: ps) :=
                suffix_append_short _ w (p :: ps) hsuf
                  (by rw [hktake]; simp; omega)
              exact hCp k hkpos hk hle hsuf2
            · have hlplen : (p :: ps).length < (nl.take k).length := by
                rw [hktake]
                simp
                omega
              have hdrop := suffix_append_long (nl.take k) w (p :: ps) hsuf hlplen
              rw [hktake] at hdrop
              have hplen : (p :: ps).length = ps.length + 1 := by simp
              rw [hplen] at hdrop
              exact hCp2 k hlt hk hdrop
        have hrest := ih (cs.drop ps.length) (w ++ (p :: ps)) (w₀ ++ r) hslen hW' hsfx
        intro i hi
        rcases occursAt_append_cases [M, ' '] r (replAllF p ps r fuel (cs.drop ps.length)) i hi
          with ⟨hA', hAl⟩ | ⟨hB1, hB2, hB3, hB4⟩ | ⟨hC1, hC2⟩
        · have hiR : i < r.length := by
            simp only [List.length_cons, List.length_nil] at hAl
            omega
          obtain ⟨h1, h2⟩ := hA i hiR hA'
          refine ⟨by omega, ?_⟩
          have hctx := occursAt_append_left nl r
            (replAllF p ps r fuel (cs.drop ps.length)) _ h2
          have hctx2 := occursAt_append_right nl w₀ _ _ hctx
          have harith : w₀.length + (i - nl.length) = w₀.length + i - nl.length := by omega
          rwa [harith] at hctx2
        · have hmlen : ([M, ' '] : List Char).length = 2 := rfl
          rw [hmlen] at hB2
          have hone : r.length - i = 1 := by omega
          rw [hone] at hB3
          have hdropi : r.drop i = [M] := by rw [← hB3]; rfl
          have hlast : r.getLast? = some M := by
            conv_lhs => rw [← List.take_append_drop i r]
            rw [hdropi, List.getLast?_concat]
          obtain ⟨hbl, hbctx⟩ := hB hlast
          refine ⟨by omega, ?_⟩
          have hctx := occursAt_append_left nl r
            (replAllF p ps r fuel (cs.drop ps.length)) _ hbctx
          have hctx2 := occursAt_append_right nl w₀ _ _ hctx
          have harith : w₀.length + (r.length - 1 - nl.length) = w₀.length + i - nl.length := by
            omega
          rwa [harith] at hctx2
        · obtain ⟨h1, h2⟩ := hrest _ hC2
          constructor
          · simp only [List.length_append] at h1
            omega
          · rw [List.append_assoc] at h2
            have harith : (w₀ ++ r).length + (i - r.length) - nl.length =
                w₀.length + i - nl.length := by
              simp only [List.length_append]
              omega
            rwa [harith] at h2
      · simp only [replAllF, if_neg hp]
        have hW2 : winCompat nl (w ++ [c]) (w₀ ++ [c]) := by
          intro k hk hsuf
          rcases Nat.eq_zero_or_pos k with hk0 | hkpos
          · subst hk0
            simp only [List.take_zero]
            exact List.nil_suffix
          · rcases suffix_singleton_append (nl.take k) w c hsuf with hnil | ⟨x', hx1, hx2⟩
            · exfalso
              have hh := congrArg List.length hnil
              simp only [List.length_take, List.length_nil] at hh
              omega
            · have hk1 : k - 1 < nl.length := by omega
              have htk : nl.take k = nl.take (k - 1) ++ [nl.get ⟨k - 1, hk1⟩] := by
                have hk2 : k = (k - 1) + 1 := by omega
                conv_lhs => rw [hk2, List.take_succ]
                congr 1
                rw [List.getElem?_eq_getElem hk1]
                rfl
              rw [htk] at hx1
              obtain ⟨hxeq, hceq⟩ := List.append_inj' hx1 rfl
              have hc2 : nl.get ⟨k - 1, hk1⟩ = c := (List.cons.inj hceq).1
              have hsw := hW (k - 1) (by omega) (by rw [hxeq]; exact hx2)
              rw [htk, hc2]
              obtain ⟨u0, hu0⟩ := hsw
              exact ⟨u0, by rw [← List.append_assoc, hu0]⟩
        have hsfx2 : sepBehind (w ++ [c]) nl [M, ' '] cs := by
          intro j hj
          have hj' : occursAt [M, ' '] (c :: cs) (j + 1) := hj
          obtain ⟨h1, h2⟩ := hsep _ hj'
          constructor
          · simp only [List.length_append, List.length_cons, List.length_nil]
            omega
          · have hassoc : (w ++ [c]) ++ cs = w ++ (c :: cs) := by
              rw [List.append_assoc]
              rfl
            rw [hassoc]
            have harith : (w ++ [c]).length + j - nl.length =
                w.length + (j + 1) - nl.length := by
              simp only [List.length_append, List.length_cons, List.length_nil]
              omega
            rw [harith]
            exact h2
        have hrest := ih cs (w ++ [c]) (w₀ ++ [c])
          (by simp only [List.length_cons] at hs; omega) hW2 hsfx2
        intro i hi
        cases i with
        | zero =>
          have hi' : [M, ' '] <+: c :: replAllF p ps r fuel cs := hi
          obtain ⟨rr, hrr⟩ := hi'
          simp only [List.cons_append] at hrr
          have hc : c = M := ((List.cons.inj hrr).1).symm
          have hrsp : (replAllF p ps r fuel cs).head? = some ' ' := by
            rw [← (List.cons.inj hrr).2]
            rfl
          have hcssp : cs.head? = some ' ' :=
            replAllF_head_sp p ps r hrne hD fuel cs hrsp
          have hs0 : occursAt [M, ' '] (c :: cs) 0 := by
            cases cs with
            | nil => simp at hcssp
            | cons d ds =>
              simp only [List.head?_cons, Option.some.injEq] at hcssp
              rw [occursAt, List.drop_zero, hc, hcssp]
              exact ⟨ds, rfl⟩
          obtain ⟨h1, h2⟩ := hsep 0 hs0
          rw [Nat.add_zero] at h1 h2
          have hnw : nl <:+ w := by
            rw [occursAt, List.drop_append_eq_append_drop] at h2
            have hd0 : (c :: cs).drop (w.length - nl.length - w.length) = c :: cs := by
              have hz : w.length - nl.length - w.length = 0 := by omega
              rw [hz, List.drop_zero]
            rw [hd0] at h2
            rcases prefix_append_split nl (w.drop (w.length - nl.length)) (c :: cs) h2
              with ⟨g1, g2⟩ | ⟨g1, _, _⟩
            · have heq : nl = w.drop (w.length - nl.length) :=
                g2.eq_of_length (by simp; omega)
              rw [heq]
              exact List.drop_suffix _ _
            · simp only [List.length_drop] at g1
              omega
          have hnw0 : nl <:+ w₀ := by
            have hh := hW nl.length (le_refl _) (by rw [List.take_length]; exact hnw)
            rwa [List.take_length] at hh
          refine ⟨?_, ?_⟩
          · have := hnw0.length_le
            omega
          · rw [Nat.add_zero]
            exact occursAt_append_left nl w₀ _ _ (suffix_occursAt_end nl w₀ hnw0)
        | succ j =>
          have hj : occursAt [M, ' '] (replAllF p ps r fuel cs) j := hi
          obtain ⟨h1, h2⟩ := hrest j hj
          constructor
          · simp only [List.length_append, List.length_cons, List.length_nil] at h1
            omega
          · have hassoc : (w₀ ++ [c]) ++ replAllF p ps r fuel cs =
                w₀ ++ (c :: replAllF p ps r fuel cs) := by
              rw [List.append_assoc]
              rfl
            rw [hassoc] at h2
            have harith : (w₀ ++ [c]).length + j - nl.length =
                w₀.length + (j + 1) - nl.length := by
              simp only [List.length_append, List.length_cons, List.length_nil]
              omega
            rwa [harith] at h2

/-- `GuardedBy` survives dropping the head character: guards look only
forward from each doubled newline. -/
theorem guardedBy_tail (Gs : List (List Char)) (c : Char) (cs : List Char)
    (h : GuardedBy Gs (c :: cs)) : GuardedBy Gs cs := by
  intro i hi
  obtain ⟨g, hg, hocc⟩ := h (i + 1) hi
  exact ⟨g, hg, hocc⟩

theorem guardedBy_drop (Gs : List (List Char)) (s : List Char) (k : Nat)
    (h : GuardedBy Gs s) : GuardedBy Gs (s.drop k) := by
  intro i hi
  obtain ⟨g, hg, hocc⟩ := h (k + i) (occursAt_of_drop _ _ _ _ hi)
  exact ⟨g, hg, occursAt_drop _ _ _ _ hocc⟩

theorem guardedBy_nil_iff (s : List Char) : GuardedBy [] s ↔ noOcc dd s := by
  unfold GuardedBy noOcc
  constructor
  · intro h i hi
    obtain ⟨g, hg, _⟩ := h i hi
    simp at hg
  · intro h i hi
    exact absurd hi (h i)

/-- Prefix transport: a prefix of the text within whose span no pattern
occurrence starts survives a replacement pass verbatim. -/
theorem prefix_transport (p : Char) (ps r : List Char) :
    ∀ (fuel : Nat) (s x : List Char), s.length ≤ fuel → x <+: s →
      (∀ j, j < x.length → ¬ (p :: ps) <+: s.drop j) →
      x <+: replAllF p ps r fuel s := by
  intro fuel
  induction fuel with
  | zero =>
    intro s x hs hx _
    have hs0 : s = [] := List.eq_nil_of_length_eq_zero (Nat.le_zero.mp hs)
    subst hs0
    simpa [replAllF] using hx
  | succ fuel ih =>
    intro s x hs hx hno
    cases s with
    | nil => simpa [replAllF] using hx
    | cons c cs =>
      cases x with
      | nil => exact List.nil_prefix
      | cons a xs =>
        have hnp : ¬ (p :: ps) <+: (c :: cs) := by
          have := hno 0 (by simp)
          simpa using this
        have hp : ¬ ((p :: ps).isPrefixOf (c :: cs) = true) := by
          intro hb
          exact hnp (List.isPrefixOf_iff_prefix.mp hb)
        simp only [replAllF, if_neg hp]
        obtain ⟨hac, hxs⟩ := List.cons_prefix_cons.mp hx
        refine List.cons_prefix_cons.mpr ⟨hac, ?_⟩
        refine ih cs xs (by simp only [List.length_cons] at hs; omega) hxs ?_
        intro j hj
        have := hno (j + 1) (by simp only [List.length_cons]; omega)
        exact this

theorem charAt_getLast (r : List Char) :
    r.getLast? = charAt r (r.length - 1) := by
  rw [List.getLast?_eq_getElem?]
  unfold charAt
  rw [List.head?_eq_getElem?, List.getElem?_drop]
  simp

/-- One unfolding step of `replAllF` on a cons cell. -/
theorem replAllF_cons_head (p : Char) (ps r : List Char) (fuel : Nat)
    (d : Char) (ds : List Char) :
    ((p :: ps).isPrefixOf (d :: ds) = true ∧
       replAllF p ps r (fuel + 1) (d :: ds) =
         r ++ replAllF p ps r fuel (ds.drop ps.length)) ∨
    ((p :: ps).isPrefixOf (d :: ds) = false ∧
       replAllF p ps r (fuel + 1) (d :: ds) = d :: replAllF p ps r fuel ds) := by
  by_cases hm : (p :: ps).isPrefixOf (d :: ds)
  · exact Or.inl ⟨hm, by simp only [replAllF, if_pos hm]⟩
  · exact Or.inr ⟨by rwa [Bool.not_eq_true] at hm, by simp only [replAllF, if_neg hm]⟩

theorem ball_le_of_ballLT (n : Nat) (P : Nat → Prop)
    (h : ∀ k, k < n + 1 → P k) : ∀ k, k ≤ n → P k :=
  fun k hk => h k (Nat.lt_succ_of_le hk)

/-- `noOcc` of a non-empty pattern follows from its bounded (decidable)
version. -/
theorem noOcc_of_bounded (m s : List Char) (hm : m ≠ [])
    (h : ∀ i, i < s.length → ¬ occursAt m s i) : noOcc m s := by
  intro i hi
  rcases lt_or_le i s.length with hlt | hge
  · exact h i hlt hi
  · obtain ⟨a, t, ha⟩ : ∃ a t, m = a :: t := by
      cases m with
      | nil => exact absurd rfl hm
      | cons a t => exact ⟨a, t, rfl⟩
    rw [ha] at hi
    exact absurd (occursAt_lt_length a t s i hi) (by omega)

/-- Blank-line guard preservation: one `str.replace` pass carries a text
whose doubled newlines all start a guard string of `Gs` to one whose
doubled newlines all start a guard string of `Gs\u2032`.  A guard the pattern
matches at its head is collapsed away and need not survive; every other
guard must be untouchable by the pattern, and the replacement must not
bring in unguarded doubled newlines of its own. -/
theorem replAllF_guards (p : Char) (ps r : List Char) (Gs Gs2 : List (List Char))
    (hr2 : 2 ≤ r.length)
    (hrlast : r.getLast? ≠ some '\n')
    (hrdd : ∀ i, i < r.length → occursAt dd r i → ∃ g ∈ Gs2, g <+: r.drop i)
    (hg3 : ∀ g ∈ Gs, 2 < g.length ∧ charAt g 2 ≠ some '\n')
    (hGs : ∀ g ∈ Gs, (p :: ps) <+: g ∨
      (g ∈ Gs2 ∧ ∀ j, j < g.length → 1 ≤ j →
        ¬ (p :: ps) <+: g.drop j ∧ ¬ g.drop j <+: (p :: ps)))
    (hcr : r.head? = some '\n' →
      (p = '\n' ∧ ps.head? = some '\n') ∨ ('\n' :: r) ∈ Gs2) :
    ∀ (fuel : Nat) (s : List Char), s.length ≤ fuel →
      GuardedBy Gs s → GuardedBy Gs2 (replAllF p ps r fuel s) := by
  intro fuel
  induction fuel with
  | zero =>
    intro s hs _
    have hs0 : s = [] := List.eq_nil_of_length_eq_zero (Nat.le_zero.mp hs)
    subst hs0
    intro i hi
    exact absurd (occursAt_nil _ _ hi) (by simp [dd])
  | succ fuel ih =>
    intro s hs hG
    cases s with
    | nil =>
      intro i hi
      exact absurd (occursAt_nil _ _ hi) (by simp [dd])
    | cons c cs =>
      by_cases hp : (p :: ps).isPrefixOf (c :: cs)
      · -- the pass consumes a pattern occurrence here
        simp only [replAllF, if_pos hp]
        have hG2 : GuardedBy Gs (cs.drop ps.length) :=
          guardedBy_drop Gs cs ps.length (guardedBy_tail Gs c cs hG)
        have hrec := ih (cs.drop ps.length) (by
          have := List.length_drop ps.length cs
          simp only [List.length_cons] at hs
          omega) hG2
        intro i hi
        rcases occursAt_append_cases dd r _ i hi with ⟨hin, hle⟩ | ⟨h1, h2, h3, _⟩ | ⟨hge, hocc⟩
        · -- doubled newline fully inside the replacement
          have hil : i < r.length := by
            have hd2 : dd.length = 2 := rfl
            omega
          obtain ⟨g, hgmem, hgpre⟩ := hrdd i hil hin
          refine ⟨g, hgmem, ?_⟩
          rw [occursAt, List.drop_append_eq_append_drop]
          exact hgpre.trans (List.prefix_append _ _)
        · -- straddling the seam: the replacement would end in a newline
          exfalso
          have hd2 : dd.length = 2 := rfl
          have hlen1 : r.length - i = 1 := by omega
          rw [hlen1] at h3
          have hdt : dd.take 1 = ['\n'] := rfl
          rw [hdt] at h3
          apply hrlast
          rw [charAt_getLast r]
          unfold charAt
          have hieq : r.length - 1 = i := by omega
          rw [hieq, ← h3]
          rfl
        · -- doubled newline in the recursively processed tail
          obtain ⟨g, hgmem, hgocc⟩ := hrec (i - r.length) hocc
          refine ⟨g, hgmem, ?_⟩
          rw [occursAt, List.drop_append_eq_append_drop, List.drop_eq_nil_of_le hge,
            List.nil_append]
          exact hgocc
      · -- the pass keeps this character
        simp only [replAllF, if_neg hp]
        have hrec := ih cs (by simp only [List.length_cons] at hs; omega)
          (guardedBy_tail Gs c cs hG)
        intro i hi
        cases i with
        | succ j =>
          obtain ⟨g, hgmem, hgocc⟩ := hrec j hi
          exact ⟨g, hgmem, hgocc⟩
        | zero =>
          have hi0 : dd <+: c :: replAllF p ps r fuel cs := hi
          obtain ⟨t, ht⟩ := hi0
          have ht2 : ('\n' : Char) :: '\n' :: t = c :: replAllF p ps r fuel cs := ht
          have hc : ('\n' : Char) = c := (List.cons.inj ht2).1
          have hout : ('\n' : Char) :: t = replAllF p ps r fuel cs := (List.cons.inj ht2).2
          cases cs with
          | nil =>
            exfalso
            have h0 : replAllF p ps r fuel ([] : List Char) = [] := by simp [replAllF]
            rw [h0] at hout
            exact List.cons_ne_nil _ _ hout
          | cons d ds =>
            cases fuel with
            | zero => simp only [List.length_cons] at hs; omega
            | succ f =>
              rcases replAllF_cons_head p ps r f d ds with ⟨hm, he⟩ | ⟨hm, he⟩
              · -- pattern is consumed right after this character
                have hrh : r.head? = some '\n' := by
                  obtain ⟨a, r1, har⟩ : ∃ a r1, r = a :: r1 := by
                    cases r with
                    | nil => simp at hr2
                    | cons a r1 => exact ⟨a, r1, rfl⟩
                  rw [he, har] at hout
                  simp only [List.cons_append] at hout
                  rw [har]
                  rw [← (List.cons.inj hout).1]
                  rfl
                rcases hcr hrh with ⟨hpnl, hpsnl⟩ | hgnew
                · -- collapse-style pass: a triple newline would be needed
                  exfalso
                  obtain ⟨e, es, hpse⟩ : ∃ e es, ps = e :: es := by
                    cases ps with
                    | nil => simp at hpsnl
                    | cons e es => exact ⟨e, es, rfl⟩
                  rw [hpse] at hpsnl
                  simp only [List.head?_cons, Option.some.injEq] at hpsnl
                  have hpre : (p :: ps) <+: d :: ds := List.isPrefixOf_iff_prefix.mp hm
                  obtain ⟨hpd, hpsds⟩ := List.cons_prefix_cons.mp hpre
                  have hds : ds.head? = some '\n' := by
                    rw [hpse] at hpsds
                    obtain ⟨u, hu⟩ := hpsds
                    rw [← hu, hpsnl]
                    rfl
                  have hdd0 : occursAt dd (c :: d :: ds) 0 := by
                    show dd <+: c :: d :: ds
                    rw [← hc, ← hpd, hpnl]
                    exact ⟨ds, rfl⟩
                  obtain ⟨g, hgmem, hgo⟩ := hG 0 hdd0
                  obtain ⟨hglen, hgch⟩ := hg3 g hgmem
                  have h2a := occursAt_charAt g (c :: d :: ds) 0 2 hgo hglen
                  rw [Nat.zero_add] at h2a
                  have h2b : charAt g 2 = some (g.get ⟨2, hglen⟩) := by
                    unfold charAt
                    rw [List.drop_eq_getElem_cons hglen]
                    rfl
                  have h2c : charAt (c :: d :: ds) 2 = some '\n' := by
                    unfold charAt
                    exact hds
                  exact hgch (h2b.trans (h2a.symm.trans h2c))
                · -- insertion-style pass: the new guard covers this seam
                  refine ⟨'\n' :: r, hgnew, ?_⟩
                  show ('\n' :: r) <+: c :: replAllF p ps r (f + 1) (d :: ds)
                  rw [he, ← hc]
                  exact List.cons_prefix_cons.mpr ⟨rfl, List.prefix_append _ _⟩
              · -- untouched doubled newline: transport its guard
                have hd : ('\n' : Char) = d := by
                  rw [he] at hout
                  exact (List.cons.inj hout).1
                have hdd0 : occursAt dd (c :: d :: ds) 0 := by
                  show dd <+: c :: d :: ds
                  rw [← hc, ← hd]
                  exact ⟨ds, rfl⟩
                obtain ⟨g, hgmem, hgo⟩ := hG 0 hdd0
                have hgo2 : g <+: c :: d :: ds := hgo
                rcases hGs g hgmem with hgp | ⟨hgmem2, hgov⟩
                · exfalso
                  exact hp (List.isPrefixOf_iff_prefix.mpr (hgp.trans hgo2))
                · obtain ⟨hglen, _⟩ := hg3 g hgmem
                  obtain ⟨a, g1, hag⟩ : ∃ a g1, g = a :: g1 := by
                    cases g with
                    | nil => simp at hglen
                    | cons a g1 => exact ⟨a, g1, rfl⟩
                  rw [hag] at hgo2
                  obtain ⟨hac, hg1⟩ := List.cons_prefix_cons.mp hgo2
                  have hno : ∀ j, j < g1.length → ¬ (p :: ps) <+: (d :: ds).drop j := by
                    intro j hj hocc
                    cases j with
                    | zero =>
                      rw [List.drop_zero] at hocc
                      have hb := List.isPrefixOf_iff_prefix.mpr hocc
                      rw [hm] at hb
                      exact Bool.false_ne_true hb
                    | succ j1 =>
                      have hj2 : j1 + 2 < g.length := by
                        rw [hag]
                        simp only [List.length_cons]
                        omega
                      obtain ⟨hno1, hno2⟩ := hgov (j1 + 2) hj2 (by omega)
                      have hgd : g.drop (j1 + 2) <+: (d :: ds).drop (j1 + 1) := by
                        rw [hag]
                        show g1.drop (j1 + 1) <+: (d :: ds).drop (j1 + 1)
                        obtain ⟨u, hu⟩ := hg1
                        rw [← hu, List.drop_append_eq_append_drop]
                        exact (List.prefix_append _ _)
                      rcases List.prefix_or_prefix_of_prefix hgd hocc with hcase | hcase
                      · exact hno2 hcase
                      · exact hno1 hcase
                  have hpt := prefix_transport p ps r (f + 1) (d :: ds) g1
                    (by simp only [List.length_cons] at hs ⊢; omega) hg1 hno
                  refine ⟨g, hgmem2, ?_⟩
                  show g <+: c :: replAllF p ps r (f + 1) (d :: ds)
                  rw [hag]
                  exact List.cons_prefix_cons.mpr ⟨hac.trans hc.symm ▸ hac, hpt⟩

/-- `strip()` decomposition: the stripped text sits between two
all-whitespace flanks of the original. -/
theorem pyStrip_decomp (s : List Char) :
    s = s.takeWhile pyWS ++
        (pyStrip s ++ ((s.dropWhile pyWS).reverse.takeWhile pyWS).reverse) ∧
    pyStrip s ++ ((s.dropWhile pyWS).reverse.takeWhile pyWS).reverse =
      s.dropWhile pyWS := by
  have h2 : pyStrip s ++ ((s.dropWhile pyWS).reverse.takeWhile pyWS).reverse =
      s.dropWhile pyWS := by
    unfold pyStrip
    rw [← List.reverse_append, List.takeWhile_append_dropWhile, List.reverse_reverse]
  refine ⟨?_, h2⟩
  rw [h2]
  exact (List.takeWhile_append_dropWhile pyWS s).symm

/-- `strip()` keeps a non-occurring pattern non-occurring. -/
theorem pyStrip_noOcc (m s : List Char) (h : noOcc m s) : noOcc m (pyStrip s) := by
  obtain ⟨hdec, _⟩ := pyStrip_decomp s
  intro i hi
  have hmap := occursAt_append_right m (s.takeWhile pyWS) _ i
    (occursAt_append_left m (pyStrip s)
      ((s.dropWhile pyWS).reverse.takeWhile pyWS).reverse i hi)
  rw [← hdec] at hmap
  exact h _ hmap

/-- `strip()` can at most move an `nl`-preceded marker occurrence to the
very start of the text, by peeling whitespace off the front: every marker
occurrence of the stripped text is still preceded by `nl`, or sits at
position 0. -/
theorem pyStrip_sepBefore (nl : List Char) (M : Char) (s : List Char)
    (hnlws : ∀ c ∈ nl, pyWS c = true)
    (h : sepBefore nl [M, ' '] s) : sepBeforeW nl [M, ' '] (pyStrip s) := by
  obtain ⟨hdec, hsd⟩ := pyStrip_decomp s
  set a := s.takeWhile pyWS with hadef
  set t := pyStrip s with htdef
  set b := ((s.dropWhile pyWS).reverse.takeWhile pyWS).reverse with hbdef
  intro i hocc
  have hit : i < t.length := occursAt_lt_length M [' '] t i hocc
  have hoccs : occursAt [M, ' '] s (a.length + i) := by
    have hmap := occursAt_append_right [M, ' '] a (t ++ b) i
      (occursAt_append_left [M, ' '] t b i hocc)
    rw [← hdec] at hmap
    exact hmap
  obtain ⟨h1, h2⟩ := h _ hoccs
  by_cases hi : nl.length ≤ i
  · right
    refine ⟨hi, ?_⟩
    have he : a.length + i - nl.length = a.length + (i - nl.length) := by omega
    rw [he] at h2
    have h3 := occursAt_drop nl s a.length (i - nl.length) h2
    have hsa : s.drop a.length = t ++ b := by
      conv_lhs => rw [hdec]
      exact List.drop_left a (t ++ b)
    rw [hsa] at h3
    rw [occursAt] at h3 ⊢
    rw [List.drop_append_eq_append_drop] at h3
    rcases prefix_append_split nl _ _ h3 with ⟨_, hpre⟩ | ⟨hlt, _, _⟩
    · exact hpre
    · rw [List.length_drop] at hlt
      omega
  · left
    by_contra hi0
    push_neg at hi
    have hipos : 1 ≤ i := Nat.one_le_iff_ne_zero.mpr hi0
    have hk : nl.length - i < nl.length := by omega
    have hca := occursAt_charAt nl s (a.length + i - nl.length) (nl.length - i) h2 hk
    have hjk : a.length + i - nl.length + (nl.length - i) = a.length := by omega
    rw [hjk] at hca
    obtain ⟨x, xs, hx⟩ : ∃ x xs, t = x :: xs := by
      cases ht : t with
      | nil =>
        rw [ht] at hocc
        exact absurd (occursAt_nil _ _ hocc) (by simp)
      | cons x xs => exact ⟨x, xs, rfl⟩
    have hchs : charAt s a.length = some x := by
      conv_lhs => rw [hdec]
      rw [charAt_append_right a (t ++ b) a.length le_rfl, Nat.sub_self, hx]
      rfl
    have hxnl : x = nl.get ⟨nl.length - i, hk⟩ := by
      rw [hchs] at hca
      exact (Option.some.injEq _ _).mp hca.symm |>.symm
    have hxws : pyWS x = true := by
      rw [hxnl]
      exact hnlws _ (List.get_mem nl (nl.length - i) hk)
    have hwne : s.dropWhile pyWS ≠ [] := by
      rw [← hsd, hx]
      simp
    have hhx : (s.dropWhile pyWS).head? = some x := by
      rw [← hsd, hx]
      rfl
    have hnws := List.head_dropWhile_not pyWS s hwne
    rw [List.head?_eq_head hwne] at hhx
    have hhv : (s.dropWhile pyWS).head hwne = x := (Option.some.injEq _ _).mp hhx
    rw [hhv] at hnws
    rw [hnws] at hxws
    exact Bool.false_ne_true hxws

/-- The eight replacement passes of `_postprocess_report_output`, staged. -/
def pp1 (s : List Char) : List Char := replAllS "○ " "\n  ○ " s

def pp2 (s : List Char) : List Char := replAllS "- " "\n    - " (pp1 s)

def pp3 (s : List Char) : List Char := replAllS "• " "\n      • " (pp2 s)

def pp4 (s : List Char) : List Char := replAllS "□ " "\n□ " (pp3 s)

def pp5 (s : List Char) : List Char := replAllS "\n\n  ○" "\n  ○" (pp4 s)

def pp6 (s : List Char) : List Char := replAllS "\n\n    -" "\n    -" (pp5 s)

def pp7 (s : List Char) : List Char := replAllS "\n\n      •" "\n      •" (pp6 s)

def pp8 (s : List Char) : List Char := replAllS "\n\n□ " "\n□ " (pp7 s)

theorem postprocessL_eq_strip (s : List Char) : postprocessL s = pyStrip (pp8 s) := rfl

theorem pp1_eq (s : List Char) :
    pp1 s = replAllF '○' [' '] (['\n', ' ', ' '] ++ ['○', ' ']) s.length s := rfl

theorem pp2_eq (s : List Char) :
    pp2 s = replAllF '-' [' '] ['\n', ' ', ' ', ' ', ' ', '-', ' ']
      (pp1 s).length (pp1 s) := rfl

theorem pp2_eq2 (s : List Char) :
    pp2 s = replAllF '-' [' '] (['\n', ' ', ' ', ' ', ' '] ++ ['-', ' '])
      (pp1 s).length (pp1 s) := rfl

theorem pp3_eq (s : List Char) :
    pp3 s = replAllF '•' [' '] ['\n', ' ', ' ', ' ', ' ', ' ', ' ', '•', ' ']
      (pp2 s).length (pp2 s) := rfl

theorem pp3_eq2 (s : List Char) :
    pp3 s = replAllF '•' [' '] (['\n', ' ', ' ', ' ', ' ', ' ', ' '] ++ ['•', ' '])
      (pp2 s).length (pp2 s) := rfl

theorem pp4_eq (s : List Char) :
    pp4 s = replAllF '□' [' '] ['\n', '□', ' '] (pp3 s).length (pp3 s) := rfl

theorem pp4_eq2 (s : List Char) :
    pp4 s = replAllF '□' [' '] (['\n'] ++ ['□', ' ']) (pp3 s).length (pp3 s) := rfl

theorem pp5_eq (s : List Char) :
    pp5 s = replAllF '\n' ['\n', ' ', ' ', '○'] ['\n', ' ', ' ', '○']
      (pp4 s).length (pp4 s) := rfl

theorem pp6_eq (s : List Char) :
    pp6 s = replAllF '\n' ['\n', ' ', ' ', ' ', ' ', '-'] ['\n', ' ', ' ', ' ', ' ', '-']
      (pp5 s).length (pp5 s) := rfl

theorem pp7_eq (s : List Char) :
    pp7 s = replAllF '\n' ['\n', ' ', ' ', ' ', ' ', ' ', ' ', '•']
      ['\n', ' ', ' ', ' ', ' ', ' ', ' ', '•'] (pp6 s).length (pp6 s) := rfl

theorem pp8_eq (s : List Char) :
    pp8 s = replAllF '\n' ['\n', '□', ' '] ['\n', '□', ' ']
      (pp7 s).length (pp7 s) := rfl

/-- `replAllF_preserves`, specialised to empty windows and with its two
pattern-versus-context side conditions in boundedly-decidable form. -/
theorem replAll_preserves_sepBefore (M p : Char) (ps r nl : List Char)
    (hrne : r ≠ [])
    (hA : ∀ i, i < r.length → occursAt [M, ' '] r i →
      nl.length ≤ i ∧ occursAt nl r (i - nl.length))
    (hB : r.getLast? = some M →
      nl.length + 1 ≤ r.length ∧ occursAt nl r (r.length - 1 - nl.length))
    (hD : r.head? ≠ some ' ')
    (hCp1 : ∀ k, k < nl.length + 1 → 1 ≤ k → k ≤ ps.length + 1 →
      ¬ (nl.take k <:+ (p :: ps)))
    (hCp3 : ∀ k, k < nl.length + 1 → ps.length + 1 < k →
      (nl.take k).drop (k - (ps.length + 1)) ≠ (p :: ps))
    (s : List Char) (h : sepBefore nl [M, ' '] s) :
    sepBefore nl [M, ' '] (replAllF p ps r s.length s) := by
  have hCp : ∀ k, 1 ≤ k → k ≤ nl.length → k ≤ ps.length + 1 →
      ¬ (nl.take k <:+ (p :: ps)) :=
    fun k h1 h2 h3 => hCp1 k (Nat.lt_succ_of_le h2) h1 h3
  have hCp2 : ∀ k, ps.length + 1 < k → k ≤ nl.length →
      (nl.take k).drop (k - (ps.length + 1)) ≠ (p :: ps) :=
    fun k h1 h2 => hCp3 k (Nat.lt_succ_of_le h2) h1
  have hb := replAllF_preserves M p ps r nl hrne hA hB hD hCp hCp2 s.length s [] []
    le_rfl (winCompat_nil nl) ((sepBehind_nil nl [M, ' '] s).mpr h)
  exact (sepBehind_nil nl [M, ' '] _).mp hb

/-- After all eight passes, every `○ ` occurrence is preceded by `"\n  "`. -/
theorem pp8_sep_circle (s : List Char) :
    sepBefore ['\n', ' ', ' '] ['○', ' '] (pp8 s) := by
  have h1 : sepBefore ['\n', ' ', ' '] ['○', ' '] (pp1 s) := by
    rw [pp1_eq]
    exact replAllF_establishes '○' ['\n', ' ', ' '] (by decide) (by decide) (by decide)
      (by decide) s.length s le_rfl
  have h2 : sepBefore ['\n', ' ', ' '] ['○', ' '] (pp2 s) := by
    rw [pp2_eq]
    exact replAll_preserves_sepBefore '○' '-' [' '] ['\n', ' ', ' ', ' ', ' ', '-', ' ']
      ['\n', ' ', ' '] (by decide) (by decide) (by decide) (by decide) (by decide)
      (by decide) (pp1 s) h1
  have h3 : sepBefore ['\n', ' ', ' '] ['○', ' '] (pp3 s) := by
    rw [pp3_eq]
    exact replAll_preserves_sepBefore '○' '•' [' ']
      ['\n', ' ', ' ', ' ', ' ', ' ', ' ', '•', ' ']
      ['\n', ' ', ' '] (by decide) (by decide) (by decide) (by decide) (by decide)
      (by decide) (pp2 s) h2
  have h4 : sepBefore ['\n', ' ', ' '] ['○', ' '] (pp4 s) := by
    rw [pp4_eq]
    exact replAll_preserves_sepBefore '○' '□' [' '] ['\n', '□', ' ']
      ['\n', ' ', ' '] (by decide) (by decide) (by decide) (by decide) (by decide)
      (by decide) (pp3 s) h3
  have h5 : sepBefore ['\n', ' ', ' '] ['○', ' '] (pp5 s) := by
    rw [pp5_eq]
    exact replAll_preserves_sepBefore '○' '\n' ['\n', ' ', ' ', '○'] ['\n', ' ', ' ', '○']
      ['\n', ' ', ' '] (by decide) (by decide) (by decide) (by decide) (by decide)
      (by decide) (pp4 s) h4
  have h6 : sepBefore ['\n', ' ', ' '] ['○', ' '] (pp6 s) := by
    rw [pp6_eq]
    exact replAll_preserves_sepBefore '○' '\n' ['\n', ' ', ' ', ' ', ' ', '-']
      ['\n', ' ', ' ', ' ', ' ', '-']
      ['\n', ' ', ' '] (by decide) (by decide) (by decide) (by decide) (by decide)
      (by decide) (pp5 s) h5
  have h7 : sepBefore ['\n', ' ', ' '] ['○', ' '] (pp7 s) := by
    rw [pp7_eq]
    exact replAll_preserves_sepBefore '○' '\n' ['\n', ' ', ' ', ' ', ' ', ' ', ' ', '•']
      ['\n', ' ', ' ', ' ', ' ', ' ', ' ', '•']
      ['\n', ' ', ' '] (by decide) (by decide) (by decide) (by decide) (by decide)
      (by decide) (pp6 s) h6
  rw [pp8_eq]
  exact replAll_preserves_sepBefore '○' '\n' ['\n', '□', ' '] ['\n', '□', ' ']
    ['\n', ' ', ' '] (by decide) (by decide) (by decide) (by decide) (by decide)
    (by decide) (pp7 s) h7

/-- After all eight passes, every `- ` occurrence is preceded by `"\n    "`. -/
theorem pp8_sep_hyphen (s : List Char) :
    sepBefore ['\n', ' ', ' ', ' ', ' '] ['-', ' '] (pp8 s) := by
  have h2 : sepBefore ['\n', ' ', ' ', ' ', ' '] ['-', ' '] (pp2 s) := by
    rw [pp2_eq2]
    exact replAllF_establishes '-' ['\n', ' ', ' ', ' ', ' '] (by decide) (by decide)
      (by decide) (by decide) (pp1 s).length (pp1 s) le_rfl
  have h3 : sepBefore ['\n', ' ', ' ', ' ', ' '] ['-', ' '] (pp3 s) := by
    rw [pp3_eq]
    exact replAll_preserves_sepBefore '-' '•' [' ']
      ['\n', ' ', ' ', ' ', ' ', ' ', ' ', '•', ' ']
      ['\n', ' ', ' ', ' ', ' '] (by decide) (by decide) (by decide) (by decide)
      (by decide) (by decide) (pp2 s) h2
  have h4 : sepBefore ['\n', ' ', ' ', ' ', ' '] ['-', ' '] (pp4 s) := by
    rw [pp4_eq]
    exact replAll_preserves_sepBefore '-' '□' [' '] ['\n', '□', ' ']
      ['\n', ' ', ' ', ' ', ' '] (by decide) (by decide) (by decide) (by decide)
      (by decide) (by decide) (pp3 s) h3
  have h5 : sepBefore ['\n', ' ', ' ', ' ', ' '] ['-', ' '] (pp5 s) := by
    rw [pp5_eq]
    exact replAll_preserves_sepBefore '-' '\n' ['\n', ' ', ' ', '○'] ['\n', ' ', ' ', '○']
      ['\n', ' ', ' ', ' ', ' '] (by decide) (by decide) (by decide) (by decide)
      (by decide) (by decide) (pp4 s) h4
  have h6 : sepBefore ['\n', ' ', ' ', ' ', ' '] ['-', ' '] (pp6 s) := by
    rw [pp6_eq]
    exact replAll_preserves_sepBefore '-' '\n' ['\n', ' ', ' ', ' ', ' ', '-']
      ['\n', ' ', ' ', ' ', ' ', '-']
      ['\n', ' ', ' ', ' ', ' '] (by decide) (by decide) (by decide) (by decide)
      (by decide) (by decide) (pp5 s) h5
  have h7 : sepBefore ['\n', ' ', ' ', ' ', ' '] ['-', ' '] (pp7 s) := by
    rw [pp7_eq]
    exact replAll_preserves_sepBefore '-' '\n' ['\n', ' ', ' ', ' ', ' ', ' ', ' ', '•']
      ['\n', ' ', ' ', ' ', ' ', ' ', ' ', '•']
      ['\n', ' ', ' ', ' ', ' '] (by decide) (by decide) (by decide) (by decide)
      (by decide) (by decide) (pp6 s) h6
  rw [pp8_eq]
  exact replAll_preserves_sepBefore '-' '\n' ['\n', '□', ' '] ['\n', '□', ' ']
    ['\n', ' ', ' ', ' ', ' '] (by decide) (by decide) (by decide) (by decide)
    (by decide) (by decide) (pp7 s) h7

/-- After all eight passes, every `• ` occurrence is preceded by `"\n      "`. -/
theorem pp8_sep_bullet (s : List Char) :
    sepBefore ['\n', ' ', ' ', ' ', ' ', ' ', ' '] ['•', ' '] (pp8 s) := by
  have h3 : sepBefore ['\n', ' ', ' ', ' ', ' ', ' ', ' '] ['•', ' '] (pp3 s) := by
    rw [pp3_eq2]
    exact replAllF_establishes '•' ['\n', ' ', ' ', ' ', ' ', ' ', ' '] (by decide)
      (by decide) (by decide) (by decide) (pp2 s).length (pp2 s) le_rfl
  have h4 : sepBefore ['\n', ' ', ' ', ' ', ' ', ' ', ' '] ['•', ' '] (pp4 s) := by
    rw [pp4_eq]
    exact replAll_preserves_sepBefore '•' '□' [' '] ['\n', '□', ' ']
      ['\n', ' ', ' ', ' ', ' ', ' ', ' '] (by decide) (by decide) (by decide)
      (by decide) (by decide) (by decide) (pp3 s) h3
  have h5 : sepBefore ['\n', ' ', ' ', ' ', ' ', ' ', ' '] ['•', ' '] (pp5 s) := by
    rw [pp5_eq]
    exact replAll_preserves_sepBefore '•' '\n' ['\n', ' ', ' ', '○'] ['\n', ' ', ' ', '○']
      ['\n', ' ', ' ', ' ', ' ', ' ', ' '] (by decide) (by decide) (by decide)
      (by decide) (by decide) (by decide) (pp4 s) h4
  have h6 : sepBefore ['\n', ' ', ' ', ' ', ' ', ' ', ' '] ['•', ' '] (pp6 s) := by
    rw [pp6_eq]
    exact replAll_preserves_sepBefore '•' '\n' ['\n', ' ', ' ', ' ', ' ', '-']
      ['\n', ' ', ' ', ' ', ' ', '-']
      ['\n', ' ', ' ', ' ', ' ', ' ', ' '] (by decide) (by decide) (by decide)
      (by decide) (by decide) (by decide) (pp5 s) h5
  have h7 : sepBefore ['\n', ' ', ' ', ' ', ' ', ' ', ' '] ['•', ' '] (pp7 s) := by
    rw [pp7_eq]
    exact replAll_preserves_sepBefore '•' '\n' ['\n', ' ', ' ', ' ', ' ', ' ', ' ', '•']
      ['\n', ' ', ' ', ' ', ' ', ' ', ' ', '•']
      ['\n', ' ', ' ', ' ', ' ', ' ', ' '] (by decide) (by decide) (by decide)
      (by decide) (by decide) (by decide) (pp6 s) h6
  rw [pp8_eq]
  exact replAll_preserves_sepBefore '•' '\n' ['\n', '□', ' '] ['\n', '□', ' ']
    ['\n', ' ', ' ', ' ', ' ', ' ', ' '] (by decide) (by decide) (by decide)
    (by decide) (by decide) (by decide) (pp7 s) h7

/-- After all eight passes, every `□ ` occurrence is preceded by `"\n"`. -/
theorem pp8_sep_square (s : List Char) :
    sepBefore ['\n'] ['□', ' '] (pp8 s) := by
  have h4 : sepBefore ['\n'] ['□', ' '] (pp4 s) := by
    rw [pp4_eq2]
    exact replAllF_establishes '□' ['\n'] (by decide) (by decide) (by decide)
      (by decide) (pp3 s).length (pp3 s) le_rfl
  have h5 : sepBefore ['\n'] ['□', ' '] (pp5 s) := by
    rw [pp5_eq]
    exact replAll_preserves_sepBefore '□' '\n' ['\n', ' ', ' ', '○'] ['\n', ' ', ' ', '○']
      ['\n'] (by decide) (by decide) (by decide) (by decide) (by decide) (by decide)
      (pp4 s) h4
  have h6 : sepBefore ['\n'] ['□', ' '] (pp6 s) := by
    rw [pp6_eq]
    exact replAll_preserves_sepBefore '□' '\n' ['\n', ' ', ' ', ' ', ' ', '-']
      ['\n', ' ', ' ', ' ', ' ', '-'] ['\n'] (by decide) (by decide) (by decide)
      (by decide) (by decide) (by decide) (pp5 s) h5
  have h7 : sepBefore ['\n'] ['□', ' '] (pp7 s) := by
    rw [pp7_eq]
    exact replAll_preserves_sepBefore '□' '\n' ['\n', ' ', ' ', ' ', ' ', ' ', ' ', '•']
      ['\n', ' ', ' ', ' ', ' ', ' ', ' ', '•'] ['\n'] (by decide) (by decide)
      (by decide) (by decide) (by decide) (by decide) (pp6 s) h6
  rw [pp8_eq]
  exact replAll_preserves_sepBefore '□' '\n' ['\n', '□', ' '] ['\n', '□', ' ']
    ['\n'] (by decide) (by decide) (by decide) (by decide) (by decide) (by decide)
    (pp7 s) h7

/-- Through the four insertion passes every doubled newline acquires a
guard (one of the four collapse patterns extended by the marker context),
and the four collapse passes then remove every guarded doubled newline:
an input free of doubled newlines comes out of the eight passes free of
doubled newlines. -/
theorem pp8_noOcc_dd (s : List Char) (h : noOcc dd s) : noOcc dd (pp8 s) := by
  have g0 : GuardedBy [] s := (guardedBy_nil_iff s).mpr h
  have g1 : GuardedBy [['\n', '\n', ' ', ' ', '○', ' ']] (pp1 s) := by
    rw [pp1_eq]
    exact replAllF_guards '○' [' '] (['\n', ' ', ' '] ++ ['○', ' '])
      [] [['\n', '\n', ' ', ' ', '○', ' ']]
      (by decide) (by decide) (by decide) (by decide) (by decide) (by decide)
      s.length s le_rfl g0
  have g2 : GuardedBy [['\n', '\n', ' ', ' ', '○', ' '],
      ['\n', '\n', ' ', ' ', ' ', ' ', '-', ' ']] (pp2 s) := by
    rw [pp2_eq]
    exact replAllF_guards '-' [' '] ['\n', ' ', ' ', ' ', ' ', '-', ' ']
      [['\n', '\n', ' ', ' ', '○', ' ']]
      [['\n', '\n', ' ', ' ', '○', ' '], ['\n', '\n', ' ', ' ', ' ', ' ', '-', ' ']]
      (by decide) (by decide) (by decide) (by decide) (by decide) (by decide)
      (pp1 s).length (pp1 s) le_rfl g1
  have g3 : GuardedBy [['\n', '\n', ' ', ' ', '○', ' '],
      ['\n', '\n', ' ', ' ', ' ', ' ', '-', ' '],
      ['\n', '\n', ' ', ' ', ' ', ' ', ' ', ' ', '•', ' ']] (pp3 s) := by
    rw [pp3_eq]
    exact replAllF_guards '•' [' '] ['\n', ' ', ' ', ' ', ' ', ' ', ' ', '•', ' ']
      [['\n', '\n', ' ', ' ', '○', ' '], ['\n', '\n', ' ', ' ', ' ', ' ', '-', ' ']]
      [['\n', '\n', ' ', ' ', '○', ' '], ['\n', '\n', ' ', ' ', ' ', ' ', '-', ' '],
        ['\n', '\n', ' ', ' ', ' ', ' ', ' ', ' ', '•', ' ']]
      (by decide) (by decide) (by decide) (by decide) (by decide) (by decide)
      (pp2 s).length (pp2 s) le_rfl g2
  have g4 : GuardedBy [['\n', '\n', ' ', ' ', '○', ' '],
      ['\n', '\n', ' ', ' ', ' ', ' ', '-', ' '],
      ['\n', '\n', ' ', ' ', ' ', ' ', ' ', ' ', '•', ' '],
      ['\n', '\n', '□', ' ']] (pp4 s) := by
    rw [pp4_eq]
    exact replAllF_guards '□' [' '] ['\n', '□', ' ']
      [['\n', '\n', ' ', ' ', '○', ' '], ['\n', '\n', ' ', ' ', ' ', ' ', '-', ' '],
        ['\n', '\n', ' ', ' ', ' ', ' ', ' ', ' ', '•', ' ']]
      [['\n', '\n', ' ', ' ', '○', ' '], ['\n', '\n', ' ', ' ', ' ', ' ', '-', ' '],
        ['\n', '\n', ' ', ' ', ' ', ' ', ' ', ' ', '•', ' '], ['\n', '\n', '□', ' ']]
      (by decide) (by decide) (by decide) (by decide) (by decide) (by decide)
      (pp3 s).length (pp3 s) le_rfl g3
  have g5 : GuardedBy [['\n', '\n', ' ', ' ', ' ', ' ', '-', ' '],
      ['\n', '\n', ' ', ' ', ' ', ' ', ' ', ' ', '•', ' '],
      ['\n', '\n', '□', ' ']] (pp5 s) := by
    rw [pp5_eq]
    exact replAllF_guards '\n' ['\n', ' ', ' ', '○'] ['\n', ' ', ' ', '○']
      [['\n', '\n', ' ', ' ', '○', ' '], ['\n', '\n', ' ', ' ', ' ', ' ', '-', ' '],
        ['\n', '\n', ' ', ' ', ' ', ' ', ' ', ' ', '•', ' '], ['\n', '\n', '□', ' ']]
      [['\n', '\n', ' ', ' ', ' ', ' ', '-', ' '],
        ['\n', '\n', ' ', ' ', ' ', ' ', ' ', ' ', '•', ' '], ['\n', '\n', '□', ' ']]
      (by decide) (by decide) (by decide) (by decide) (by decide) (by decide)
      (pp4 s).length (pp4 s) le_rfl g4
  have g6 : GuardedBy [['\n', '\n', ' ', ' ', ' ', ' ', ' ', ' ', '•', ' '],
      ['\n', '\n', '□', ' ']] (pp6 s) := by
    rw [pp6_eq]
    exact replAllF_guards '\n' ['\n', ' ', ' ', ' ', ' ', '-']
      ['\n', ' ', ' ', ' ', ' ', '-']
      [['\n', '\n', ' ', ' ', ' ', ' ', '-', ' '],
        ['\n', '\n', ' ', ' ', ' ', ' ', ' ', ' ', '•', ' '], ['\n', '\n', '□', ' ']]
      [['\n', '\n', ' ', ' ', ' ', ' ', ' ', ' ', '•', ' '], ['\n', '\n', '□', ' ']]
      (by decide) (by decide) (by decide) (by decide) (by decide) (by decide)
      (pp5 s).length (pp5 s) le_rfl g5
  have g7 : GuardedBy [['\n', '\n', '□', ' ']] (pp7 s) := by
    rw [pp7_eq]
    exact replAllF_guards '\n' ['\n', ' ', ' ', ' ', ' ', ' ', ' ', '•']
      ['\n', ' ', ' ', ' ', ' ', ' ', ' ', '•']
      [['\n', '\n', ' ', ' ', ' ', ' ', ' ', ' ', '•', ' '], ['\n', '\n', '□', ' ']]
      [['\n', '\n', '□', ' ']]
      (by decide) (by decide) (by decide) (by decide) (by decide) (by decide)
      (pp6 s).length (pp6 s) le_rfl g6
  have g8 : GuardedBy [] (pp8 s) := by
    rw [pp8_eq]
    exact replAllF_guards '\n' ['\n', '□', ' '] ['\n', '□', ' ']
      [['\n', '\n', '□', ' ']] []
      (by decide) (by decide) (by decide) (by decide) (by decide) (by decide)
      (pp7 s).length (pp7 s) le_rfl g7
  exact (guardedBy_nil_iff _).mp g8

/-- A concrete report text with the four hierarchy markers inline and no
doubled newline. -/
def demoC10 : List Char := ("Overview □ A ○ b- c• d\nEnd").data

/-- C10: `_postprocess_report_output` (list form `postprocessL`) is a
deterministic text transform after which every occurrence of each fixed
hierarchy marker (`○ `, `- `, `• `, `□ `) begins on its own line — it is
preceded by a newline plus the marker's fixed indent (two, four, six and
zero spaces respectively), except possibly at position 0 once the final
`strip()` has peeled the leading whitespace off — and the doubled blank
lines the normalization introduces are collapsed: an input without
doubled newlines yields an output without doubled newlines. -/
theorem postprocess_markers_own_line (s : List Char) :
    sepBeforeW ['\n', ' ', ' '] ['○', ' '] (postprocessL s) ∧
    sepBeforeW ['\n', ' ', ' ', ' ', ' '] ['-', ' '] (postprocessL s) ∧
    sepBeforeW ['\n', ' ', ' ', ' ', ' ', ' ', ' '] ['•', ' '] (postprocessL s) ∧
    sepBeforeW ['\n'] ['□', ' '] (postprocessL s) ∧
    (noOcc dd s → noOcc dd (postprocessL s)) := by
  rw [postprocessL_eq_strip]
  refine ⟨?_, ?_, ?_, ?_, ?_⟩
  · exact pyStrip_sepBefore ['\n', ' ', ' '] '○' (pp8 s) (by decide) (pp8_sep_circle s)
  · exact pyStrip_sepBefore ['\n', ' ', ' ', ' ', ' '] '-' (pp8 s) (by decide)
      (pp8_sep_hyphen s)
  · exact pyStrip_sepBefore ['\n', ' ', ' ', ' ', ' ', ' ', ' '] '•' (pp8 s) (by decide)
      (pp8_sep_bullet s)
  · exact pyStrip_sepBefore ['\n'] '□' (pp8 s) (by decide) (pp8_sep_square s)
  · intro hdd
    exact pyStrip_noOcc dd (pp8 s) (pp8_noOcc_dd s hdd)

/-- Witness: the C10 theorem applied at the concrete doubled-newline-free
input `demoC10`, with the `noOcc` hypothesis of the blank-line conjunct
discharged by computation. -/
theorem postprocess_markers_own_line_witness :
    sepBeforeW ['\n', ' ', ' '] ['○', ' '] (postprocessL demoC10) ∧
    sepBeforeW ['\n', ' ', ' ', ' ', ' '] ['-', ' '] (postprocessL demoC10) ∧
    sepBeforeW ['\n', ' ', ' ', ' ', ' ', ' ', ' '] ['•', ' '] (postprocessL demoC10) ∧
    sepBeforeW ['\n'] ['□', ' '] (postprocessL demoC10) ∧
    noOcc dd (postprocessL demoC10) := by
  obtain ⟨h1, h2, h3, h4, h5⟩ := postprocess_markers_own_line demoC10
  exact ⟨h1, h2, h3, h4, h5 (noOcc_of_bounded dd demoC10 (by decide) (by decide))⟩

end IndustryReport
